import Mathlib

/-!
Verification of the group-wise aggregation kernels of `pandas/_libs/groupby.pyx`.

The kernels are shallowly embedded: a 2-D buffer becomes a total function from
indices, an in-place mutation becomes a pointwise functional update, and the
row / column loops become `List.foldl` over `List.range`.  Machine floats are
modelled by `Option ℚ`: `none` plays the role of IEEE `NaN` (the source only
ever tests floats for NaN via `val == val` and propagates NaN through
arithmetic, which the `f*` operations below reproduce); `±∞` sentinels used to
initialise running extrema are modelled by `none` in an `Option ℚ` accumulator
(any finite value compares past the sentinel, exactly as any float compares
past `∓∞`).  Signed/unsigned 64-bit integers are modelled by `ℤ` / `ℕ`.
Entry-point validations that raise become `Except`; `assert`-only parameters
(e.g. `min_count == -1` for kernels that do not use it) are noted in doc
comments and dropped from the embedded body.
-/

/-- Pointwise update of a `ℕ × ℕ`-indexed buffer (an in-place `out[i, j] = v`). -/
def upd2 {α : Type} (f : ℕ → ℕ → α) (a b : ℕ) (v : α) : ℕ → ℕ → α :=
  fun x y => if x = a ∧ y = b then v else f x y

/-- Pointwise update of a `(group, column)`-indexed buffer (groups carry the
signed label type). -/
def updCell {α : Type} (f : ℤ → ℕ → α) (g : ℤ) (j : ℕ) (v : α) : ℤ → ℕ → α :=
  fun x y => if x = g ∧ y = j then v else f x y

@[simp] theorem upd2_same {α : Type} (f : ℕ → ℕ → α) (a b : ℕ) (v : α) :
    upd2 f a b v a b = v := by simp [upd2]

theorem upd2_other {α : Type} (f : ℕ → ℕ → α) (a b x y : ℕ) (v : α)
    (h : ¬(x = a ∧ y = b)) : upd2 f a b v x y = f x y := by simp [upd2, h]

@[simp] theorem updCell_same {α : Type} (f : ℤ → ℕ → α) (g : ℤ) (j : ℕ) (v : α) :
    updCell f g j v g j = v := by simp [updCell]

theorem updCell_other {α : Type} (f : ℤ → ℕ → α) (g : ℤ) (j : ℕ) (x : ℤ) (y : ℕ)
    (v : α) (h : ¬(x = g ∧ y = j)) : updCell f g j v x y = f x y := by
  simp [updCell, h]

/-- NaN-propagating addition on the float model (`none` is NaN). -/
def fadd : Option ℚ → Option ℚ → Option ℚ
  | some a, some b => some (a + b)
  | _, _ => none

/-- NaN-propagating subtraction on the float model. -/
def fsub : Option ℚ → Option ℚ → Option ℚ
  | some a, some b => some (a - b)
  | _, _ => none

/-- `NPY_NAT`, the int64 NA sentinel, as a rational (its float64 cast in
`group_add`'s datetimelike check). -/
def NPY_NAT : ℚ := -(2 ^ 63)

/-! ## group_shift_indexer -/

/-- State of the `group_shift_indexer` loop: per-group seen counter, the
per-group ring buffer `label_indexer`, and the output vector. -/
structure ShiftState where
  seen : ℤ → ℤ
  indexer : ℤ → ℕ → ℤ
  out : ℕ → ℤ

/-- One iteration of the `group_shift_indexer` loop body, at input position
`ii` (already direction-adjusted).  `p` is `|periods|`. -/
def shiftStep (labels : ℕ → ℤ) (p : ℕ) (st : ShiftState) (ii : ℕ) : ShiftState :=
  if labels ii = -1 then
    { st with out := Function.update st.out ii (-1) }
  else
    { seen := Function.update st.seen (labels ii) (st.seen (labels ii) + 1)
      indexer := updCell st.indexer (labels ii)
        ((st.seen (labels ii) + 1) % (p : ℤ)).toNat (ii : ℤ)
      out := Function.update st.out ii
        (if st.seen (labels ii) + 1 > (p : ℤ)
         then st.indexer (labels ii) ((st.seen (labels ii) + 1) % (p : ℤ)).toNat
         else -1) }

/-- The iteration order of the row loop: forward for positive `periods`,
reversed for negative (`ii = offset + sign * i`). -/
def shiftIter (N : ℕ) (periods : ℤ) : List ℕ :=
  if periods < 0 then (List.range N).reverse else List.range N

/-- Shallow embedding of `group_shift_indexer`.  `out0` is the caller's
preallocated output buffer. -/
def groupShiftIndexer (N : ℕ) (labels : ℕ → ℤ) (periods : ℤ) (out0 : ℕ → ℤ) :
    ℕ → ℤ :=
  if periods = 0 then
    (List.range N).foldl (fun o i => Function.update o i (i : ℤ)) out0
  else
    ((shiftIter N periods).foldl (shiftStep labels periods.natAbs)
      { seen := fun _ => 0, indexer := fun _ _ => 0, out := out0 }).out

/-- The rows of the iteration order `l` that belong to group `g`, in visit
order (for forward shifts this is ascending row order, for backward shifts
descending). -/
def visitsOf (labels : ℕ → ℤ) (l : List ℕ) (g : ℤ) : List ℕ :=
  l.filter (fun ii => labels ii == g)

/-- The successive values stored in ring-buffer slot `s` while the visit
sequence `vs` is processed; `k` is the 0-based visit index of the head
(the `m`-th visit, 1-based, writes slot `m % p`). -/
def slotWrites (p s : ℕ) : ℕ → List ℕ → List ℤ
  | _, [] => []
  | k, x :: xs => (if (k + 1) % p = s then [(x : ℤ)] else []) ++ slotWrites p s (k + 1) xs

theorem slotWrites_append (p s : ℕ) (xs : List ℕ) (x k : ℕ) :
    slotWrites p s k (xs ++ [x]) =
      slotWrites p s k xs ++ (if (k + xs.length + 1) % p = s then [(x : ℤ)] else []) := by
  induction xs generalizing k with
  | nil => simp [slotWrites]
  | cons y ys ih =>
    have hcons : (y :: ys) ++ [x] = y :: (ys ++ [x]) := rfl
    rw [hcons]
    simp only [slotWrites, List.length_cons]
    rw [ih (k + 1), List.append_assoc]
    have h : k + 1 + ys.length + 1 = k + (ys.length + 1) + 1 := by omega
    rw [h]

/-- The last value written to slot `s` over the visit list `vs` is the
`k`-th visit, provided visit `k` targets slot `s` and no later visit does. -/
theorem slotWrites_getLastD (p s : ℕ) (hp : 0 < p) (vs : List ℕ) (k : ℕ)
    (hk : k < vs.length) (hle : vs.length ≤ k + p) (hmod : (k + 1) % p = s) :
    (slotWrites p s 0 vs).getLastD 0 = (vs.getD k 0 : ℤ) := by
  induction vs using List.reverseRecOn generalizing k with
  | nil => simp at hk
  | append_singleton ys x ih =>
    rw [slotWrites_append]
    simp only [Nat.zero_add, List.length_append, List.length_singleton] at *
    by_cases hcase : (ys.length + 1) % p = s
    · -- the appended visit writes slot `s`; it must be visit `k` itself
      have hkeq : k = ys.length := by
        by_contra hne
        have hklt : k < ys.length := by omega
        have hdvd : p ∣ ys.length - k := by
          have h1 := (Nat.modEq_iff_dvd' (by omega : k + 1 ≤ ys.length + 1)).mp
            (by unfold Nat.ModEq; rw [hmod, hcase])
          have h2 : ys.length + 1 - (k + 1) = ys.length - k := by omega
          rwa [h2] at h1
        have := Nat.le_of_dvd (by omega) hdvd
        omega
      subst hkeq
      rw [if_pos hcase, List.getLastD_concat,
        List.getD_append_right _ _ _ _ (le_refl _)]
      simp
    · -- the appended visit targets another slot
      have hkne : k ≠ ys.length := by
        intro h; rw [h] at hmod; exact hcase hmod
      have hklt : k < ys.length := by omega
      rw [if_neg hcase, List.append_nil, List.getD_append _ _ _ _ hklt]
      exact ih k hklt (by omega) hmod

/-- Loop invariant of `group_shift_indexer` after the rows in `pre` have been
visited: `label_seen` counts the group's visits, each ring-buffer slot holds
the last index written to it, and every visited row of a group already holds
its final output. -/
def ShiftInv (labels : ℕ → ℤ) (p : ℕ) (pre : List ℕ) (st : ShiftState) : Prop :=
  ∀ g : ℤ, 0 ≤ g →
    st.seen g = ((visitsOf labels pre g).length : ℤ) ∧
    (∀ s : ℕ, st.indexer g s = (slotWrites p s 0 (visitsOf labels pre g)).getLastD 0) ∧
    (∀ k : ℕ, k < (visitsOf labels pre g).length →
      st.out ((visitsOf labels pre g).getD k 0) =
        if k + 1 ≤ p then -1 else ((visitsOf labels pre g).getD (k - p) 0 : ℤ))

theorem visitsOf_mem_of_getD {labels : ℕ → ℤ} {l : List ℕ} {g : ℤ} {k : ℕ}
    (hk : k < (visitsOf labels l g).length) : (visitsOf labels l g).getD k 0 ∈ l := by
  rw [List.getD_eq_getElem _ _ hk]
  exact (List.filter_sublist l).mem (List.getElem_mem hk)

theorem shiftInv_step (labels : ℕ → ℤ) (p : ℕ) (hp : 0 < p) (pre : List ℕ)
    (st : ShiftState) (ii : ℕ) (hii : ii ∉ pre)
    (hinv : ShiftInv labels p pre st) :
    ShiftInv labels p (pre ++ [ii]) (shiftStep labels p st ii) := by
  intro g hg
  obtain ⟨hseen, hidx, hout⟩ := hinv g hg
  by_cases hlab : labels ii = -1
  · -- null key: only `out ii` is written, the group state is untouched
    have hvis : visitsOf labels (pre ++ [ii]) g = visitsOf labels pre g := by
      unfold visitsOf
      rw [List.filter_append]
      have hne : (labels ii == g) = false := by
        simp only [beq_eq_false_iff_ne, ne_eq]
        intro h; rw [hlab] at h; omega
      simp [hne]
    unfold shiftStep
    rw [if_pos hlab, hvis]
    refine ⟨hseen, hidx, ?_⟩
    intro k hk
    have hne : (visitsOf labels pre g).getD k 0 ≠ ii := fun h =>
      hii (h ▸ visitsOf_mem_of_getD hk)
    dsimp only
    rw [Function.update_noteq hne]
    exact hout k hk
  · by_cases hgl : labels ii = g
    · -- a visit of group `g`
      subst hgl
      have hvis : visitsOf labels (pre ++ [ii]) (labels ii)
          = visitsOf labels pre (labels ii) ++ [ii] := by
        unfold visitsOf
        rw [List.filter_append]
        simp
      unfold shiftStep
      rw [if_neg hlab, hvis]
      have hslot : ((st.seen (labels ii) + 1) % (p : ℤ)).toNat
          = ((visitsOf labels pre (labels ii)).length + 1) % p := by
        rw [hseen]
        have h1 : (((visitsOf labels pre (labels ii)).length : ℤ) + 1) % (p : ℤ)
            = ((((visitsOf labels pre (labels ii)).length + 1) % p : ℕ) : ℤ) := by
          push_cast; ring
        rw [h1, Int.toNat_ofNat]
      refine ⟨?_, ?_, ?_⟩
      · dsimp only
        rw [Function.update_same, hseen]
        simp only [List.length_append, List.length_singleton]
        push_cast
        ring
      · intro s
        dsimp only
        by_cases hs : s = ((visitsOf labels pre (labels ii)).length + 1) % p
        · rw [hslot, hs, updCell_same, slotWrites_append]
          have h0 : 0 + (visitsOf labels pre (labels ii)).length + 1
              = (visitsOf labels pre (labels ii)).length + 1 := by omega
          rw [h0, if_pos rfl, List.getLastD_concat]
        · rw [updCell_other _ _ _ _ _ _ (fun hand => hs (by rw [hand.2, hslot])),
            hidx s, slotWrites_append]
          have h0 : 0 + (visitsOf labels pre (labels ii)).length + 1
              = (visitsOf labels pre (labels ii)).length + 1 := by omega
          rw [h0, if_neg (fun h => hs h.symm), List.append_nil]
      · intro k hk
        dsimp only
        simp only [List.length_append, List.length_singleton] at hk
        by_cases hkl : k < (visitsOf labels pre (labels ii)).length
        · -- previously visited rows keep their output
          have hne : (visitsOf labels pre (labels ii)).getD k 0 ≠ ii := fun h =>
            hii (h ▸ visitsOf_mem_of_getD hkl)
          rw [List.getD_append _ _ _ _ hkl, Function.update_noteq hne, hout k hkl]
          by_cases hkp : k + 1 ≤ p
          · rw [if_pos hkp, if_pos hkp]
          · rw [if_neg hkp, if_neg hkp, List.getD_append _ _ _ _ (by omega)]
        · -- the new row: its output was just written from the ring buffer
          have hkeq : k = (visitsOf labels pre (labels ii)).length := by omega
          subst hkeq
          rw [List.getD_append_right _ _ _ _ (le_refl _), Nat.sub_self]
          simp only [List.getD_cons_zero]
          rw [Function.update_same]
          by_cases hgt : (visitsOf labels pre (labels ii)).length + 1 ≤ p
          · have hc : ¬(st.seen (labels ii) + 1 > (p : ℤ)) := by
              rw [hseen]; push_cast; omega
            rw [if_neg hc, if_pos hgt]
          · have hc : st.seen (labels ii) + 1 > (p : ℤ) := by
              rw [hseen]; push_cast; omega
            rw [if_pos hc, if_neg hgt, hslot, hidx]
            rw [slotWrites_getLastD p _ hp _
              ((visitsOf labels pre (labels ii)).length - p) (by omega) (by omega)
              (by rw [← Nat.add_mod_right
                    ((visitsOf labels pre (labels ii)).length - p + 1) p]
                  congr 1
                  omega)]
            rw [List.getD_append _ _ _ _ (by omega)]
    · -- a visit of a different group: `g`'s state is untouched
      have hvis : visitsOf labels (pre ++ [ii]) g = visitsOf labels pre g := by
        unfold visitsOf
        rw [List.filter_append]
        simp [hgl]
      unfold shiftStep
      rw [if_neg hlab, hvis]
      refine ⟨?_, ?_, ?_⟩
      · dsimp only
        rw [Function.update_noteq (fun h => hgl h.symm), hseen]
      · intro s
        dsimp only
        rw [updCell_other _ _ _ _ _ _ (fun hand => hgl hand.1.symm), hidx s]
      · intro k hk
        dsimp only
        have hne : (visitsOf labels pre g).getD k 0 ≠ ii := fun h =>
          hii (h ▸ visitsOf_mem_of_getD hk)
        rw [Function.update_noteq hne]
        exact hout k hk

theorem shiftInv_fold (labels : ℕ → ℤ) (p : ℕ) (hp : 0 < p) :
    ∀ (rest pre : List ℕ) (st : ShiftState), (pre ++ rest).Nodup →
      ShiftInv labels p pre st →
      ShiftInv labels p (pre ++ rest) (rest.foldl (shiftStep labels p) st) := by
  intro rest
  induction rest with
  | nil => intro pre st _ h; simpa using h
  | cons ii rest ih =>
    intro pre st hnd hinv
    have hii : ii ∉ pre := by
      rw [List.nodup_append] at hnd
      intro h
      exact hnd.2.2 h (List.mem_cons_self ii rest)
    have hre : pre ++ ii :: rest = (pre ++ [ii]) ++ rest := by simp
    rw [hre] at hnd ⊢
    rw [List.foldl_cons]
    exact ih (pre ++ [ii]) _ hnd (shiftInv_step labels p hp pre st ii hii hinv)

theorem shiftIter_nodup (N : ℕ) (periods : ℤ) : (shiftIter N periods).Nodup := by
  unfold shiftIter
  by_cases h : periods < 0 <;> simp [h, List.nodup_range]

theorem shiftFold_out_frame (labels : ℕ → ℤ) (p : ℕ) :
    ∀ (l : List ℕ) (st : ShiftState) (i : ℕ), i ∉ l →
      (l.foldl (shiftStep labels p) st).out i = st.out i := by
  intro l
  induction l with
  | nil => intro st i _; rfl
  | cons a l ih =>
    intro st i hi
    have hia : i ≠ a := fun h => hi (h ▸ List.mem_cons_self a l)
    rw [List.foldl_cons, ih _ i (fun h => hi (List.mem_cons_of_mem a h))]
    unfold shiftStep
    by_cases hlab : labels a = -1
    · rw [if_pos hlab]
      exact Function.update_noteq hia _ _
    · rw [if_neg hlab]
      exact Function.update_noteq hia _ _

theorem shiftFold_out_na (labels : ℕ → ℤ) (p : ℕ) :
    ∀ (l : List ℕ) (st : ShiftState) (i : ℕ), l.Nodup → i ∈ l → labels i = -1 →
      (l.foldl (shiftStep labels p) st).out i = -1 := by
  intro l
  induction l with
  | nil => intro st i _ hi; simp at hi
  | cons a l ih =>
    intro st i hnd hi hlab
    rw [List.foldl_cons]
    by_cases hia : i = a
    · subst hia
      rw [shiftFold_out_frame labels p l _ i (List.Nodup.not_mem hnd)]
      unfold shiftStep
      rw [if_pos hlab]
      show Function.update st.out i (-1) i = -1
      rw [Function.update_same]
    · exact ih _ i (List.Nodup.of_cons hnd)
        ((List.mem_cons.mp hi).resolve_left hia) hlab

theorem idFold_frame (out0 : ℕ → ℤ) :
    ∀ (l : List ℕ) (i : ℕ), i ∉ l →
      (l.foldl (fun o (i : ℕ) => Function.update o i (i : ℤ)) out0) i = out0 i := by
  intro l
  induction l generalizing out0 with
  | nil => intro i _; rfl
  | cons a l ih =>
    intro i hi
    rw [List.foldl_cons, ih _ i (fun h => hi (List.mem_cons_of_mem a h)),
      Function.update_noteq (fun h => hi (by rw [h]; exact List.mem_cons_self a l))]

theorem idFold_eq (out0 : ℕ → ℤ) :
    ∀ (l : List ℕ) (i : ℕ), l.Nodup → i ∈ l →
      (l.foldl (fun o (i : ℕ) => Function.update o i (i : ℤ)) out0) i = (i : ℤ) := by
  intro l
  induction l generalizing out0 with
  | nil => intro i _ hi; simp at hi
  | cons a l ih =>
    intro i hnd hi
    rw [List.foldl_cons]
    by_cases hia : i = a
    · subst hia
      rw [idFold_frame _ l i (List.Nodup.not_mem hnd), Function.update_same]
    · exact ih _ i (List.Nodup.of_cons hnd)
        ((List.mem_cons.mp hi).resolve_left hia)

/-- C8: for `group_shift_indexer` with `periods ≠ 0`, iterating in the signed
direction, each visited row of a group gets `-1` until more than `|periods|`
rows of its group have been seen, and thereafter gets the input index seen
`|periods|` group-positions earlier; in particular `labels = [0,0,0,0,0]`,
`periods = 2` yields `out = [-1, -1, 0, 1, 2]`. -/
theorem groupShiftIndexer_ring_buffer :
    (∀ (N : ℕ) (labels : ℕ → ℤ) (periods : ℤ) (out0 : ℕ → ℤ) (g : ℤ) (k : ℕ),
      periods ≠ 0 → 0 ≤ g → k < (visitsOf labels (shiftIter N periods) g).length →
      groupShiftIndexer N labels periods out0
          ((visitsOf labels (shiftIter N periods) g).getD k 0) =
        if k + 1 ≤ periods.natAbs then -1
        else ((visitsOf labels (shiftIter N periods) g).getD (k - periods.natAbs) 0 : ℤ)) ∧
    (List.range 5).map (groupShiftIndexer 5 (fun _ => 0) 2 (fun _ => -7)) =
      [-1, -1, 0, 1, 2] := by
  constructor
  · intro N labels periods out0 g k hper hg hk
    unfold groupShiftIndexer
    rw [if_neg hper]
    have hp : 0 < periods.natAbs := Int.natAbs_pos.mpr hper
    have hbase : ShiftInv labels periods.natAbs []
        { seen := fun _ => 0, indexer := fun _ _ => 0, out := out0 } := by
      intro g' hg'
      refine ⟨by simp [visitsOf], fun s => by simp [visitsOf, slotWrites], fun k hk => ?_⟩
      simp [visitsOf] at hk
    have hinv := shiftInv_fold labels periods.natAbs hp (shiftIter N periods) []
      { seen := fun _ => 0, indexer := fun _ _ => 0, out := out0 }
      (by simpa using shiftIter_nodup N periods) hbase
    simp only [List.nil_append] at hinv
    exact (hinv g hg).2.2 k hk
  · decide

theorem groupShiftIndexer_ring_buffer_witness :
    groupShiftIndexer 5 (fun _ => 0) 2 (fun _ => -7)
        ((visitsOf (fun _ => 0) (shiftIter 5 2) 0).getD 4 0) =
      if 4 + 1 ≤ (2 : ℤ).natAbs then -1
      else ((visitsOf (fun _ => 0) (shiftIter 5 2) 0).getD (4 - (2 : ℤ).natAbs) 0 : ℤ) :=
  groupShiftIndexer_ring_buffer.1 5 (fun _ => 0) 2 (fun _ => -7) 0 4
    (by decide) (by decide) (by decide)

/-- C9 (amended): rows with label `-1` receive `out[i] = -1` for every
`periods ≠ 0`; the `periods = 0` fast path instead writes `out[i] = i` for
every row, ignoring labels entirely. -/
theorem groupShiftIndexer_na_label_rows :
    (∀ (N : ℕ) (labels : ℕ → ℤ) (periods : ℤ) (out0 : ℕ → ℤ) (i : ℕ),
      periods ≠ 0 → i < N → labels i = -1 →
      groupShiftIndexer N labels periods out0 i = -1) ∧
    (∀ (N : ℕ) (labels : ℕ → ℤ) (out0 : ℕ → ℤ) (i : ℕ), i < N →
      groupShiftIndexer N labels 0 out0 i = (i : ℤ)) := by
  constructor
  · intro N labels periods out0 i hper hi hlab
    unfold groupShiftIndexer
    rw [if_neg hper]
    refine shiftFold_out_na labels periods.natAbs _ _ i
      (shiftIter_nodup N periods) ?_ hlab
    unfold shiftIter
    by_cases h : periods < 0 <;> simp [h, List.mem_range, hi]
  · intro N labels out0 i hi
    unfold groupShiftIndexer
    rw [if_pos rfl]
    exact idFold_eq out0 (List.range N) i (List.nodup_range N)
      (List.mem_range.mpr hi)

/-- C9, counterexample to the original claim: with `periods = 0` a row whose
label is `-1` receives its own index, not `-1`. -/
theorem groupShiftIndexer_na_label_rows_cex :
    groupShiftIndexer 1 (fun _ => -1) 0 (fun _ => -7) 0 = 0 ∧
    groupShiftIndexer 1 (fun _ => -1) 0 (fun _ => -7) 0 ≠ -1 := by
  constructor <;> decide

theorem groupShiftIndexer_na_label_rows_witness :
    groupShiftIndexer 1 (fun _ => -1) 2 (fun _ => -7) 0 = -1 ∧
    groupShiftIndexer 1 (fun _ => (0 : ℤ)) 0 (fun _ => -7) 0 = 0 :=
  ⟨groupShiftIndexer_na_label_rows.1 1 (fun _ => -1) 2 (fun _ => -7) 0
      (by decide) (by decide) rfl,
    groupShiftIndexer_na_label_rows.2 1 (fun _ => (0 : ℤ)) (fun _ => -7) 0 (by decide)⟩

/-! ## Shared reducer skeleton

All reducers accumulate with the same two nested loops: for each row `i`,
skip `labels[i] < 0`, bump `counts[lab]`, then update a per-`(group, column)`
accumulator cell for each column `j`.  The cell type `σ` and the update
`step` are supplied by each kernel. -/

/-- State of a reducer's accumulation pass. -/
structure GState (σ : Type) where
  counts : ℤ → ℤ
  cell : ℤ → ℕ → σ

/-- One row of the shared accumulation loop. -/
def accRow {σ : Type} (K : ℕ) (labels : ℕ → ℤ) (step : ℕ → ℕ → σ → σ)
    (s : GState σ) (i : ℕ) : GState σ :=
  if labels i < 0 then s
  else
    { counts := Function.update s.counts (labels i) (s.counts (labels i) + 1)
      cell := (List.range K).foldl
        (fun c j => updCell c (labels i) j (step i j (c (labels i) j))) s.cell }

/-- The full accumulation pass over rows `0, …, N-1`. -/
def accumulate {σ : Type} (N K : ℕ) (labels : ℕ → ℤ) (step : ℕ → ℕ → σ → σ)
    (init : GState σ) : GState σ :=
  (List.range N).foldl (accRow K labels step) init

theorem colsFold_eq {σ : Type} (lab : ℤ) (step : ℕ → ℕ → σ → σ) (i : ℕ) :
    ∀ (js : List ℕ), js.Nodup → ∀ (c : ℤ → ℕ → σ) (g : ℤ) (j : ℕ),
      (js.foldl (fun c j' => updCell c lab j' (step i j' (c lab j'))) c) g j =
        if g = lab ∧ j ∈ js then step i j (c g j) else c g j := by
  intro js
  induction js with
  | nil => intro _ c g j; simp
  | cons j' js ih =>
    intro hnd c g j
    rw [List.foldl_cons, ih (List.Nodup.of_cons hnd)]
    by_cases hg : g = lab
    · subst hg
      by_cases hj : j = j'
      · subst hj
        rw [if_neg (fun hand => (List.Nodup.not_mem hnd) hand.2), updCell_same,
          if_pos ⟨rfl, List.mem_cons_self j js⟩]
      · rw [updCell_other _ _ _ _ _ _ (fun hand => hj hand.2)]
        by_cases hin : j ∈ js
        · rw [if_pos ⟨rfl, hin⟩, if_pos ⟨rfl, List.mem_cons_of_mem _ hin⟩]
        · rw [if_neg (fun hand => hin hand.2),
            if_neg (fun hand => hin ((List.mem_cons.mp hand.2).resolve_left hj))]
    · rw [updCell_other _ _ _ _ _ _ (fun hand => hg hand.1),
        if_neg (fun hand => hg hand.1), if_neg (fun hand => hg hand.1)]

/-- Per-cell view of the accumulation pass: the cell of `(g, j)` is obtained
by folding the kernel's step over exactly the rows of group `g`, in row
order. -/
theorem accumulate_cell_fold {σ : Type} (K : ℕ) (labels : ℕ → ℤ)
    (step : ℕ → ℕ → σ → σ) :
    ∀ (l : List ℕ) (s : GState σ) (g : ℤ) (j : ℕ), 0 ≤ g → j < K →
      (l.foldl (accRow K labels step) s).cell g j =
        (l.filter (fun i => labels i == g)).foldl (fun acc i => step i j acc)
          (s.cell g j) := by
  intro l
  induction l with
  | nil => intro s g j _ _; rfl
  | cons i l ih =>
    intro s g j hg hj
    rw [List.foldl_cons, ih _ g j hg hj, List.filter_cons]
    by_cases hlab : labels i < 0
    · have hbeq : (labels i == g) = false := by
        simp only [beq_eq_false_iff_ne, ne_eq]
        omega
      rw [hbeq]
      unfold accRow
      rw [if_pos hlab]
      simp
    · unfold accRow
      rw [if_neg hlab]
      dsimp only
      rw [colsFold_eq (labels i) step i (List.range K) (List.nodup_range K)
        s.cell g j]
      by_cases hgi : labels i = g
      · have hbeq : (labels i == g) = true := by simp [hgi]
        rw [hbeq, if_pos ⟨hgi.symm, List.mem_range.mpr hj⟩, if_pos rfl,
          List.foldl_cons]
      · have hbeq : (labels i == g) = false := by simp [hgi]
        rw [hbeq, if_neg (fun hand => hgi hand.1.symm),
          if_neg Bool.false_ne_true]

/-- `counts[g]` after the accumulation pass counts every row of group `g`,
NA values included. -/
theorem accumulate_counts_fold {σ : Type} (K : ℕ) (labels : ℕ → ℤ)
    (step : ℕ → ℕ → σ → σ) :
    ∀ (l : List ℕ) (s : GState σ) (g : ℤ), 0 ≤ g →
      (l.foldl (accRow K labels step) s).counts g =
        s.counts g + ((l.filter (fun i => labels i == g)).length : ℤ) := by
  intro l
  induction l with
  | nil => intro s g _; simp
  | cons i l ih =>
    intro s g hg
    rw [List.foldl_cons, ih _ g hg, List.filter_cons]
    by_cases hlab : labels i < 0
    · have hbeq : (labels i == g) = false := by
        simp only [beq_eq_false_iff_ne, ne_eq]
        omega
      rw [hbeq]
      unfold accRow
      rw [if_pos hlab]
      simp
    · unfold accRow
      rw [if_neg hlab]
      dsimp only
      by_cases hgi : labels i = g
      · have hbeq : (labels i == g) = true := by simp [hgi]
        rw [hbeq, if_pos rfl, hgi, Function.update_same]
        simp only [List.length_cons]
        push_cast
        ring
      · have hbeq : (labels i == g) = false := by simp [hgi]
        rw [hbeq, if_neg Bool.false_ne_true,
          Function.update_noteq (fun h => hgi h.symm)]

/-- The finalize pass of the reducers: write `h g j` into every cell of the
`G × K` output buffer; outside that range the buffer is untouched. -/
def writeAll {α : Type} (G K : ℕ) (h : ℕ → ℕ → α) (out0 : ℕ → ℕ → α) :
    ℕ → ℕ → α :=
  (List.range G).foldl
    (fun o g => (List.range K).foldl (fun o' j => upd2 o' g j (h g j)) o) out0

theorem writeRow_eq {α : Type} (g0 : ℕ) (h : ℕ → ℕ → α) :
    ∀ (js : List ℕ) (o : ℕ → ℕ → α) (g j : ℕ),
      (js.foldl (fun o' j => upd2 o' g0 j (h g0 j)) o) g j =
        if g = g0 ∧ j ∈ js then h g0 j else o g j := by
  intro js
  induction js with
  | nil => intro o g j; simp
  | cons j' js ih =>
    intro o g j
    rw [List.foldl_cons, ih]
    by_cases hc : g = g0 ∧ j ∈ js
    · rw [if_pos hc, if_pos ⟨hc.1, List.mem_cons_of_mem _ hc.2⟩]
    · rw [if_neg hc]
      by_cases hc2 : g = g0 ∧ j = j'
      · rw [upd2, if_pos hc2, if_pos ⟨hc2.1, hc2.2 ▸ List.mem_cons_self j' js⟩,
          hc2.2]
      · rw [upd2_other _ _ _ _ _ _ hc2, if_neg (fun hand => ?_)]
        rcases List.mem_cons.mp hand.2 with h1 | h1
        · exact hc2 ⟨hand.1, h1⟩
        · exact hc ⟨hand.1, h1⟩

theorem writeAll_eq {α : Type} (G K : ℕ) (h : ℕ → ℕ → α) (out0 : ℕ → ℕ → α)
    (g j : ℕ) :
    writeAll G K h out0 g j = if g < G ∧ j < K then h g j else out0 g j := by
  unfold writeAll
  have main : ∀ (gs : List ℕ) (o : ℕ → ℕ → α),
      (gs.foldl
        (fun o g => (List.range K).foldl (fun o' j => upd2 o' g j (h g j)) o) o)
          g j =
        if g ∈ gs ∧ j < K then h g j else o g j := by
    intro gs
    induction gs with
    | nil => intro o; simp
    | cons g' gs ih =>
      intro o
      rw [List.foldl_cons, ih]
      by_cases hc : g ∈ gs ∧ j < K
      · rw [if_pos hc, if_pos ⟨List.mem_cons_of_mem _ hc.1, hc.2⟩]
      · rw [if_neg hc, writeRow_eq]
        by_cases hc2 : g = g' ∧ j ∈ List.range K
        · rw [if_pos hc2, if_pos ⟨hc2.1 ▸ List.mem_cons_self g' gs,
            List.mem_range.mp hc2.2⟩, hc2.1]
        · rw [if_neg hc2, if_neg (fun hand => ?_)]
          rcases List.mem_cons.mp hand.1 with h1 | h1
          · exact hc2 ⟨h1, List.mem_range.mpr hand.2⟩
          · exact hc ⟨h1, hand.2⟩
  rw [main]
  simp [List.mem_range]

/-! ## group_var -/

/-- One Welford update (`nobs += 1; oldmean = mean; mean += (val−oldmean)/nobs;
M2 += (val−mean)·(val−oldmean)`); the state is `(nobs, mean, M2)`. -/
def welfordStep (s : ℤ × ℚ × ℚ) (v : ℚ) : ℤ × ℚ × ℚ :=
  let nobs := s.1 + 1
  let oldmean := s.2.1
  let mean := oldmean + (v - oldmean) / (nobs : ℚ)
  (nobs, mean, s.2.2 + (v - mean) * (v - oldmean))

/-- The accumulation step of `group_var` at row `i`, column `j`: NaN cells
(`val == val` fails) are skipped, others do a Welford update. -/
def varStep (values : ℕ → ℕ → Option ℚ) (i j : ℕ) (s : ℤ × ℚ × ℚ) :
    ℤ × ℚ × ℚ :=
  match values i j with
  | none => s
  | some v => welfordStep s v

/-- The accumulation pass of `group_var` (`nobs`/`mean` zero-initialised,
`M2` lives in the zeroed output buffer). -/
def groupVarAcc (N K : ℕ) (values : ℕ → ℕ → Option ℚ) (labels : ℕ → ℤ)
    (counts0 : ℤ → ℤ) : GState (ℤ × ℚ × ℚ) :=
  accumulate N K labels (varStep values)
    { counts := counts0, cell := fun _ _ => (0, 0, 0) }

/-- The finalize step of `group_var`: `ct ≤ ddof ⇒ NaN`, else
`out /= (ct − ddof)`. -/
def varFinalize (ddof : ℤ) (s : ℤ × ℚ × ℚ) : Option ℚ :=
  if s.1 ≤ ddof then none else some (s.2.2 / ((s.1 : ℚ) - (ddof : ℚ)))

/-- Shallow embedding of `group_var` (float track; the `min_count` parameter
is only `assert`-checked to be `-1` at entry and is dropped here; the source
zeroes the `ncounts × K` output buffer on entry, accumulates `M2` in it, and
finalizes in place).  Returns `(out, counts)`. -/
def groupVar (N K ncounts : ℕ) (values : ℕ → ℕ → Option ℚ) (labels : ℕ → ℤ)
    (ddof : ℤ) (counts0 : ℤ → ℤ) : (ℕ → ℕ → Option ℚ) × (ℤ → ℤ) :=
  (writeAll ncounts K
      (fun g j => varFinalize ddof ((groupVarAcc N K values labels counts0).cell (g : ℤ) j))
      (fun g j => some (((groupVarAcc N K values labels counts0).cell (g : ℤ) j).2.2)),
    (groupVarAcc N K values labels counts0).counts)

/-- The Welford recurrence of the spec folded over a value list, from
`(0, 0, 0)`. -/
def welford (l : List ℚ) : ℤ × ℚ × ℚ :=
  l.foldl welfordStep (0, 0, 0)

/-- The non-NA values of column `j` contributed by rows of group `g`, in row
order. -/
def groupColVals (N : ℕ) (values : ℕ → ℕ → Option ℚ) (labels : ℕ → ℤ)
    (g : ℤ) (j : ℕ) : List ℚ :=
  ((List.range N).filter (fun i => labels i == g)).filterMap (fun i => values i j)

theorem varStep_filterMap (values : ℕ → ℕ → Option ℚ) (j : ℕ) :
    ∀ (rows : List ℕ) (s : ℤ × ℚ × ℚ),
      rows.foldl (fun acc i => varStep values i j acc) s =
        (rows.filterMap (fun i => values i j)).foldl welfordStep s := by
  intro rows
  induction rows with
  | nil => intro s; rfl
  | cons i rows ih =>
    intro s
    rw [List.foldl_cons, List.filterMap_cons]
    cases h : values i j with
    | none => rw [ih]; unfold varStep; rw [h]
    | some v => rw [List.foldl_cons, ih]; unfold varStep; rw [h]

theorem groupVar_char (N K ncounts : ℕ) (values : ℕ → ℕ → Option ℚ)
    (labels : ℕ → ℤ) (ddof : ℤ) (counts0 : ℤ → ℤ) (g j : ℕ)
    (hg : g < ncounts) (hj : j < K) :
    (groupVar N K ncounts values labels ddof counts0).1 g j =
      (if (welford (groupColVals N values labels (g : ℤ) j)).1 ≤ ddof then none
       else some ((welford (groupColVals N values labels (g : ℤ) j)).2.2 /
         (((welford (groupColVals N values labels (g : ℤ) j)).1 : ℚ) - (ddof : ℚ)))) := by
  have hcell : (groupVarAcc N K values labels counts0).cell (g : ℤ) j =
      welford (groupColVals N values labels (g : ℤ) j) := by
    unfold groupVarAcc accumulate
    rw [accumulate_cell_fold K labels (varStep values) (List.range N) _
      (g : ℤ) j (by positivity) hj]
    rw [varStep_filterMap]
    rfl
  show writeAll ncounts K _ _ g j = _
  rw [writeAll_eq, if_pos ⟨hg, hj⟩, hcell]
  rfl

/-- C1: after `group_var`'s accumulate and finalize phases, every output cell
`out[g, j]` is NaN when the non-NA contribution count is at most `ddof` and
otherwise equals `M2/(nobs − ddof)`, where `mean` and `M2` follow the Welford
recurrence over the group's non-NA column values in row order; in particular
`values = [[5.0],[7.0],[9.0]]`, `labels = [0,0,1]`, `ddof = 1` yields
`out = [[2.0],[NaN]]`. -/
theorem groupVar_welford :
    (∀ (N K ncounts : ℕ) (values : ℕ → ℕ → Option ℚ) (labels : ℕ → ℤ)
        (ddof : ℤ) (counts0 : ℤ → ℤ) (g j : ℕ), g < ncounts → j < K →
      (groupVar N K ncounts values labels ddof counts0).1 g j =
        (if (welford (groupColVals N values labels (g : ℤ) j)).1 ≤ ddof then none
         else some ((welford (groupColVals N values labels (g : ℤ) j)).2.2 /
           (((welford (groupColVals N values labels (g : ℤ) j)).1 : ℚ) - (ddof : ℚ))))) ∧
    (groupVar 3 1 2 (fun i _ => [some (5 : ℚ), some 7, some 9].getD i none)
        (fun i => [(0 : ℤ), 0, 1].getD i 0) 1 (fun _ => 0)).1 0 0 = some 2 ∧
    (groupVar 3 1 2 (fun i _ => [some (5 : ℚ), some 7, some 9].getD i none)
        (fun i => [(0 : ℤ), 0, 1].getD i 0) 1 (fun _ => 0)).1 1 0 = none := by
  refine ⟨?_,
    by norm_num [groupVar, groupVarAcc, accumulate, accRow, varStep, welfordStep,
      varFinalize, writeAll, upd2, updCell, List.range_succ],
    by norm_num [groupVar, groupVarAcc, accumulate, accRow, varStep, welfordStep,
      varFinalize, writeAll, upd2, updCell, List.range_succ]⟩
  intro N K ncounts values labels ddof counts0 g j hg hj
  exact groupVar_char N K ncounts values labels ddof counts0 g j hg hj

theorem groupVar_welford_witness :
    (groupVar 3 1 2 (fun i _ => [some (5 : ℚ), some 7, some 9].getD i none)
        (fun i => [(0 : ℤ), 0, 1].getD i 0) 1 (fun _ => 0)).1 0 0 =
      (if (welford (groupColVals 3 (fun i _ => [some (5 : ℚ), some 7, some 9].getD i none)
            (fun i => [(0 : ℤ), 0, 1].getD i 0) ((0 : ℕ) : ℤ) 0)).1 ≤ 1 then none
       else some ((welford (groupColVals 3 (fun i _ => [some (5 : ℚ), some 7, some 9].getD i none)
            (fun i => [(0 : ℤ), 0, 1].getD i 0) ((0 : ℕ) : ℤ) 0)).2.2 /
          (((welford (groupColVals 3 (fun i _ => [some (5 : ℚ), some 7, some 9].getD i none)
            (fun i => [(0 : ℤ), 0, 1].getD i 0) ((0 : ℕ) : ℤ) 0)).1 : ℚ) - ((1 : ℤ) : ℚ)))) :=
  groupVar_welford.1 3 1 2 (fun i _ => [some (5 : ℚ), some 7, some 9].getD i none)
    (fun i => [(0 : ℤ), 0, 1].getD i 0) 1 (fun _ => 0) 0 0 (by decide) (by decide)

/-! ## group_add, group_prod, group_last, group_nth, group_min_max
(float track, no external mask; the mask / result_mask channel appears in the
uint64 embeddings further below) -/

/-- One Kahan update of `group_add`: `y = val − compensation;
t = sumx + y; compensation = t − sumx − y; sumx = t`; state
`(nobs, sumx, compensation)`. -/
def kahanStep (s : ℤ × ℚ × ℚ) (v : ℚ) : ℤ × ℚ × ℚ :=
  let y := v - s.2.2
  let t := s.2.1 + y
  (s.1 + 1, t, t - s.2.1 - y)

/-- `group_add` cell update at `(i, j)`: skip NaN, and (float64 datetimelike
track) skip values equal to the cast `NPY_NAT` sentinel. -/
def addStepCell (values : ℕ → ℕ → Option ℚ) (is_datetimelike : Bool) (i j : ℕ)
    (s : ℤ × ℚ × ℚ) : ℤ × ℚ × ℚ :=
  match values i j with
  | none => s
  | some v => if is_datetimelike ∧ v = NPY_NAT then s else kahanStep s v

/-- Shallow embedding of `group_add` (float track): Kahan accumulation, then
finalize `nobs < min_count ⇒ NaN` else the sum.  Returns `(out, counts)`. -/
def groupAdd (N K ncounts : ℕ) (values : ℕ → ℕ → Option ℚ) (labels : ℕ → ℤ)
    (min_count : ℤ) (is_datetimelike : Bool) (counts0 : ℤ → ℤ)
    (out0 : ℕ → ℕ → Option ℚ) : (ℕ → ℕ → Option ℚ) × (ℤ → ℤ) :=
  ((fun st => (writeAll ncounts K
      (fun g j => if (st.cell (g : ℤ) j).1 < min_count then none
                  else some (st.cell (g : ℤ) j).2.1) out0, st.counts))
    (accumulate N K labels (addStepCell values is_datetimelike)
      { counts := counts0, cell := fun _ _ => (0, 0, 0) }))

/-- `group_prod` cell update: state `(nobs, prodx)`, product initialised 1. -/
def prodStep (s : ℤ × ℚ) (v : ℚ) : ℤ × ℚ := (s.1 + 1, s.2 * v)

def prodStepCell (values : ℕ → ℕ → Option ℚ) (i j : ℕ) (s : ℤ × ℚ) : ℤ × ℚ :=
  match values i j with
  | none => s
  | some v => prodStep s v

/-- Shallow embedding of `group_prod` (floating only). -/
def groupProd (N K ncounts : ℕ) (values : ℕ → ℕ → Option ℚ) (labels : ℕ → ℤ)
    (min_count : ℤ) (counts0 : ℤ → ℤ) (out0 : ℕ → ℕ → Option ℚ) :
    (ℕ → ℕ → Option ℚ) × (ℤ → ℤ) :=
  ((fun st => (writeAll ncounts K
      (fun g j => if (st.cell (g : ℤ) j).1 < min_count then none
                  else some (st.cell (g : ℤ) j).2) out0, st.counts))
    (accumulate N K labels (prodStepCell values)
      { counts := counts0, cell := fun _ _ => (0, 1) }))

/-- `group_last` cell update: every non-NA value overwrites `resx`. -/
def lastStep (s : ℤ × ℚ) (v : ℚ) : ℤ × ℚ := (s.1 + 1, v)

def lastStepCell (values : ℕ → ℕ → Option ℚ) (i j : ℕ) (s : ℤ × ℚ) : ℤ × ℚ :=
  match values i j with
  | none => s          -- _treat_as_na(val, True) is the NaN test on floats
  | some v => lastStep s v

/-- Shallow embedding of `group_last` (float track, `mask = None`;
`resx = np.empty_like(out)` is the arbitrary initial buffer `resx0`;
`min_count = max(min_count, 1)` on entry). -/
def groupLast (N K ncounts : ℕ) (values : ℕ → ℕ → Option ℚ) (labels : ℕ → ℤ)
    (min_count : ℤ) (resx0 : ℤ → ℕ → ℚ) (counts0 : ℤ → ℤ)
    (out0 : ℕ → ℕ → Option ℚ) : (ℕ → ℕ → Option ℚ) × (ℤ → ℤ) :=
  ((fun st => (writeAll ncounts K
      (fun g j => if (st.cell (g : ℤ) j).1 < max min_count 1 then none
                  else some (st.cell (g : ℤ) j).2) out0, st.counts))
    (accumulate N K labels (lastStepCell values)
      { counts := counts0, cell := fun g j => (0, resx0 g j) }))

/-- `group_nth` cell update: record the value the first time `nobs` reaches
`rank`. -/
def nthStep (rank : ℤ) (s : ℤ × ℚ) (v : ℚ) : ℤ × ℚ :=
  (s.1 + 1, if s.1 + 1 = rank then v else s.2)

def nthStepCell (values : ℕ → ℕ → Option ℚ) (rank : ℤ) (i j : ℕ) (s : ℤ × ℚ) :
    ℤ × ℚ :=
  match values i j with
  | none => s
  | some v => nthStep rank s v

/-- Shallow embedding of `group_nth` (float track, `mask = None`). -/
def groupNth (N K ncounts : ℕ) (values : ℕ → ℕ → Option ℚ) (labels : ℕ → ℤ)
    (min_count rank : ℤ) (resx0 : ℤ → ℕ → ℚ) (counts0 : ℤ → ℤ)
    (out0 : ℕ → ℕ → Option ℚ) : (ℕ → ℕ → Option ℚ) × (ℤ → ℤ) :=
  ((fun st => (writeAll ncounts K
      (fun g j => if (st.cell (g : ℤ) j).1 < max min_count 1 then none
                  else some (st.cell (g : ℤ) j).2) out0, st.counts))
    (accumulate N K labels (nthStepCell values rank)
      { counts := counts0, cell := fun g j => (0, resx0 g j) }))

/-- `group_min_max` cell update: the `∓∞` initial sentinel of
`group_min_or_max` is modelled by `none`, which any value beats. -/
def mmStep (compute_max : Bool) (s : ℤ × Option ℚ) (v : ℚ) : ℤ × Option ℚ :=
  (s.1 + 1,
    some (match s.2 with
      | none => v
      | some m =>
          if compute_max then (if v > m then v else m)
          else (if v < m then v else m)))

def mmStepCell (values : ℕ → ℕ → Option ℚ) (compute_max : Bool) (i j : ℕ)
    (s : ℤ × Option ℚ) : ℤ × Option ℚ :=
  match values i j with
  | none => s
  | some v => mmStep compute_max s v

/-- Shallow embedding of `group_min_max` (float track, `mask = None`;
`min_count = max(min_count, 1)` on entry; `nan_val = NaN`). -/
def groupMinMax (N K ncounts : ℕ) (values : ℕ → ℕ → Option ℚ) (labels : ℕ → ℤ)
    (min_count : ℤ) (compute_max : Bool) (counts0 : ℤ → ℤ)
    (out0 : ℕ → ℕ → Option ℚ) : (ℕ → ℕ → Option ℚ) × (ℤ → ℤ) :=
  ((fun st => (writeAll ncounts K
      (fun g j => if (st.cell (g : ℤ) j).1 < max min_count 1 then none
                  else (st.cell (g : ℤ) j).2) out0, st.counts))
    (accumulate N K labels (mmStepCell values compute_max)
      { counts := counts0, cell := fun _ _ => (0, none) }))

/-- The NA rule of `group_add`'s float track applied at one cell: NaN, or the
`NPY_NAT` cast when datetimelike, is NA. -/
def addNA (values : ℕ → ℕ → Option ℚ) (is_datetimelike : Bool) (j i : ℕ) :
    Option ℚ :=
  match values i j with
  | none => none
  | some v => if is_datetimelike ∧ v = NPY_NAT then none else some v

/-- The non-NA values `group_add` accumulates for `(g, j)`, in row order. -/
def addColVals (N : ℕ) (values : ℕ → ℕ → Option ℚ) (labels : ℕ → ℤ)
    (is_datetimelike : Bool) (g : ℤ) (j : ℕ) : List ℚ :=
  ((List.range N).filter (fun i => labels i == g)).filterMap
    (addNA values is_datetimelike j)

def kahanFold (l : List ℚ) : ℤ × ℚ × ℚ := l.foldl kahanStep (0, 0, 0)

def prodFold (l : List ℚ) : ℤ × ℚ := l.foldl prodStep (0, 1)

def lastFold (r0 : ℚ) (l : List ℚ) : ℤ × ℚ := l.foldl lastStep (0, r0)

def nthFold (rank : ℤ) (r0 : ℚ) (l : List ℚ) : ℤ × ℚ :=
  l.foldl (nthStep rank) (0, r0)

def mmFold (compute_max : Bool) (l : List ℚ) : ℤ × Option ℚ :=
  l.foldl (mmStep compute_max) (0, none)

theorem addStep_filterMap (values : ℕ → ℕ → Option ℚ) (dtl : Bool) (j : ℕ) :
    ∀ (rows : List ℕ) (s : ℤ × ℚ × ℚ),
      rows.foldl (fun acc i => addStepCell values dtl i j acc) s =
        (rows.filterMap (addNA values dtl j)).foldl kahanStep s := by
  intro rows
  induction rows with
  | nil => intro s; rfl
  | cons i rows ih =>
    intro s
    rw [List.foldl_cons, List.filterMap_cons]
    have hcell : addStepCell values dtl i j s =
        match addNA values dtl j i with
        | none => s
        | some v => kahanStep s v := by
      unfold addStepCell addNA
      cases values i j with
      | none => rfl
      | some v => by_cases hnat : dtl ∧ v = NPY_NAT <;> simp [hnat]
    rw [hcell]
    cases h : addNA values dtl j i with
    | none => exact ih s
    | some v =>
      dsimp only
      rw [List.foldl_cons]
      exact ih (kahanStep s v)

theorem prodStep_filterMap (values : ℕ → ℕ → Option ℚ) (j : ℕ) :
    ∀ (rows : List ℕ) (s : ℤ × ℚ),
      rows.foldl (fun acc i => prodStepCell values i j acc) s =
        (rows.filterMap (fun i => values i j)).foldl prodStep s := by
  intro rows
  induction rows with
  | nil => intro s; rfl
  | cons i rows ih =>
    intro s
    rw [List.foldl_cons, List.filterMap_cons]
    cases h : values i j with
    | none => rw [ih]; unfold prodStepCell; rw [h]
    | some v => rw [List.foldl_cons, ih]; unfold prodStepCell; rw [h]

theorem lastStep_filterMap (values : ℕ → ℕ → Option ℚ) (j : ℕ) :
    ∀ (rows : List ℕ) (s : ℤ × ℚ),
      rows.foldl (fun acc i => lastStepCell values i j acc) s =
        (rows.filterMap (fun i => values i j)).foldl lastStep s := by
  intro rows
  induction rows with
  | nil => intro s; rfl
  | cons i rows ih =>
    intro s
    rw [List.foldl_cons, List.filterMap_cons]
    cases h : values i j with
    | none => rw [ih]; unfold lastStepCell; rw [h]
    | some v => rw [List.foldl_cons, ih]; unfold lastStepCell; rw [h]

theorem nthStep_filterMap (values : ℕ → ℕ → Option ℚ) (rank : ℤ) (j : ℕ) :
    ∀ (rows : List ℕ) (s : ℤ × ℚ),
      rows.foldl (fun acc i => nthStepCell values rank i j acc) s =
        (rows.filterMap (fun i => values i j)).foldl (nthStep rank) s := by
  intro rows
  induction rows with
  | nil => intro s; rfl
  | cons i rows ih =>
    intro s
    rw [List.foldl_cons, List.filterMap_cons]
    cases h : values i j with
    | none => rw [ih]; unfold nthStepCell; rw [h]
    | some v => rw [List.foldl_cons, ih]; unfold nthStepCell; rw [h]

theorem mmStep_filterMap (values : ℕ → ℕ → Option ℚ) (cm : Bool) (j : ℕ) :
    ∀ (rows : List ℕ) (s : ℤ × Option ℚ),
      rows.foldl (fun acc i => mmStepCell values cm i j acc) s =
        (rows.filterMap (fun i => values i j)).foldl (mmStep cm) s := by
  intro rows
  induction rows with
  | nil => intro s; rfl
  | cons i rows ih =>
    intro s
    rw [List.foldl_cons, List.filterMap_cons]
    cases h : values i j with
    | none => rw [ih]; unfold mmStepCell; rw [h]
    | some v => rw [List.foldl_cons, ih]; unfold mmStepCell; rw [h]

/-- Every reducer step bumps `nobs` by exactly one per non-NA value. -/
theorem foldFst_count {β : Type} (step : (ℤ × β) → ℚ → (ℤ × β))
    (h : ∀ s v, (step s v).1 = s.1 + 1) :
    ∀ (l : List ℚ) (s : ℤ × β), (l.foldl step s).1 = s.1 + (l.length : ℤ) := by
  intro l
  induction l with
  | nil => intro s; simp
  | cons v l ih =>
    intro s
    rw [List.foldl_cons, ih (step s v), h s v]
    simp only [List.length_cons]
    push_cast
    ring

/-- The running extremum is a real value as soon as one value was seen. -/
theorem mmFold_isSome (cm : Bool) :
    ∀ (l : List ℚ) (s : ℤ × Option ℚ), (0 < s.1 → s.2.isSome) →
      0 < (l.foldl (mmStep cm) s).1 → ((l.foldl (mmStep cm) s).2).isSome := by
  intro l
  induction l with
  | nil => intro s h; exact h
  | cons v l ih =>
    intro s _ h2
    exact ih (mmStep cm s v) (fun _ => rfl) h2

theorem groupAdd_char (N K ncounts : ℕ) (values : ℕ → ℕ → Option ℚ)
    (labels : ℕ → ℤ) (mc : ℤ) (dtl : Bool) (counts0 : ℤ → ℤ)
    (out0 : ℕ → ℕ → Option ℚ) (g j : ℕ) (hg : g < ncounts) (hj : j < K) :
    (groupAdd N K ncounts values labels mc dtl counts0 out0).1 g j =
      if ((addColVals N values labels dtl (g : ℤ) j).length : ℤ) < mc then none
      else some ((kahanFold (addColVals N values labels dtl (g : ℤ) j)).2.1) := by
  unfold groupAdd
  dsimp only
  rw [writeAll_eq, if_pos ⟨hg, hj⟩]
  unfold accumulate
  rw [accumulate_cell_fold K labels (addStepCell values dtl) (List.range N) _
    (g : ℤ) j (by positivity) hj]
  rw [addStep_filterMap]
  rw [foldFst_count kahanStep (fun s v => rfl)]
  simp [kahanFold, addColVals]

theorem groupProd_char (N K ncounts : ℕ) (values : ℕ → ℕ → Option ℚ)
    (labels : ℕ → ℤ) (mc : ℤ) (counts0 : ℤ → ℤ)
    (out0 : ℕ → ℕ → Option ℚ) (g j : ℕ) (hg : g < ncounts) (hj : j < K) :
    (groupProd N K ncounts values labels mc counts0 out0).1 g j =
      if ((groupColVals N values labels (g : ℤ) j).length : ℤ) < mc then none
      else some ((prodFold (groupColVals N values labels (g : ℤ) j)).2) := by
  unfold groupProd
  dsimp only
  rw [writeAll_eq, if_pos ⟨hg, hj⟩]
  unfold accumulate
  rw [accumulate_cell_fold K labels (prodStepCell values) (List.range N) _
    (g : ℤ) j (by positivity) hj]
  rw [prodStep_filterMap]
  rw [foldFst_count prodStep (fun s v => rfl)]
  simp [prodFold, groupColVals]

theorem groupLast_char (N K ncounts : ℕ) (values : ℕ → ℕ → Option ℚ)
    (labels : ℕ → ℤ) (mc : ℤ) (resx0 : ℤ → ℕ → ℚ) (counts0 : ℤ → ℤ)
    (out0 : ℕ → ℕ → Option ℚ) (g j : ℕ) (hg : g < ncounts) (hj : j < K) :
    (groupLast N K ncounts values labels mc resx0 counts0 out0).1 g j =
      if ((groupColVals N values labels (g : ℤ) j).length : ℤ) < max mc 1 then none
      else some ((lastFold (resx0 (g : ℤ) j)
        (groupColVals N values labels (g : ℤ) j)).2) := by
  unfold groupLast
  dsimp only
  rw [writeAll_eq, if_pos ⟨hg, hj⟩]
  unfold accumulate
  rw [accumulate_cell_fold K labels (lastStepCell values) (List.range N) _
    (g : ℤ) j (by positivity) hj]
  rw [lastStep_filterMap]
  rw [foldFst_count lastStep (fun s v => rfl)]
  simp [lastFold, groupColVals]

theorem groupNth_char (N K ncounts : ℕ) (values : ℕ → ℕ → Option ℚ)
    (labels : ℕ → ℤ) (mc rank : ℤ) (resx0 : ℤ → ℕ → ℚ) (counts0 : ℤ → ℤ)
    (out0 : ℕ → ℕ → Option ℚ) (g j : ℕ) (hg : g < ncounts) (hj : j < K) :
    (groupNth N K ncounts values labels mc rank resx0 counts0 out0).1 g j =
      if ((groupColVals N values labels (g : ℤ) j).length : ℤ) < max mc 1 then none
      else some ((nthFold rank (resx0 (g : ℤ) j)
        (groupColVals N values labels (g : ℤ) j)).2) := by
  unfold groupNth
  dsimp only
  rw [writeAll_eq, if_pos ⟨hg, hj⟩]
  unfold accumulate
  rw [accumulate_cell_fold K labels (nthStepCell values rank) (List.range N) _
    (g : ℤ) j (by positivity) hj]
  rw [nthStep_filterMap]
  rw [foldFst_count (nthStep rank) (fun s v => rfl)]
  simp [nthFold, groupColVals]

theorem groupMinMax_char (N K ncounts : ℕ) (values : ℕ → ℕ → Option ℚ)
    (labels : ℕ → ℤ) (mc : ℤ) (cm : Bool) (counts0 : ℤ → ℤ)
    (out0 : ℕ → ℕ → Option ℚ) (g j : ℕ) (hg : g < ncounts) (hj : j < K) :
    (groupMinMax N K ncounts values labels mc cm counts0 out0).1 g j =
      if ((groupColVals N values labels (g : ℤ) j).length : ℤ) < max mc 1 then none
      else (mmFold cm (groupColVals N values labels (g : ℤ) j)).2 := by
  unfold groupMinMax
  dsimp only
  rw [writeAll_eq, if_pos ⟨hg, hj⟩]
  unfold accumulate
  rw [accumulate_cell_fold K labels (mmStepCell values cm) (List.range N) _
    (g : ℤ) j (by positivity) hj]
  rw [mmStep_filterMap]
  rw [foldFst_count (mmStep cm) (fun s v => rfl)]
  simp [mmFold, groupColVals]

theorem finalize_none_iff {α : Type} (c : Prop) [Decidable c] (v : α) :
    (if c then none else some v) = none ↔ c := by
  by_cases h : c <;> simp [h]

theorem finalize_mono {α : Type} (c1 c2 : Prop) [Decidable c1] [Decidable c2]
    (himp : c1 → c2) (v : Option α) :
    ((if c1 then none else v) = none → (if c2 then none else v) = none) ∧
    ((if c2 then none else v) ≠ none →
      (if c2 then none else v) = (if c1 then none else v)) := by
  constructor
  · intro h
    by_cases h2 : c2
    · rw [if_pos h2]
    · have h1 : ¬c1 := fun hc => h2 (himp hc)
      rw [if_neg h1] at h
      rw [if_neg h2]
      exact h
  · intro h
    by_cases h2 : c2
    · rw [if_pos h2] at h
      exact absurd rfl h
    · have h1 : ¬c1 := fun hc => h2 (himp hc)
      rw [if_neg h1, if_neg h2]

theorem mm_none_iff (cm : Bool) (mc : ℤ) (l : List ℚ) :
    ((if ((l.length : ℤ) < max mc 1) then none else (mmFold cm l).2) = none ↔
      ((l.length : ℤ) < max mc 1)) := by
  constructor
  · intro h
    by_contra hc
    rw [if_neg hc] at h
    have hcount := foldFst_count (mmStep cm) (fun s v => rfl) l
      ((0 : ℤ), (none : Option ℚ))
    have h1 : (0 : ℤ) < (mmFold cm l).1 := by
      unfold mmFold
      rw [hcount]
      simp only []
      omega
    have h2 := mmFold_isSome cm l ((0 : ℤ), (none : Option ℚ))
      (fun h0 => absurd h0 (lt_irrefl 0)) h1
    unfold mmFold at h
    rw [h] at h2
    simp at h2
  · intro hc
    rw [if_pos hc]

/-- C3: for the reducers honoring `min_count`, the threshold compared against
each cell's non-NA contribution count is exactly the caller's `min_count` for
`group_add` (sum) and `group_prod` (default 0), and `max(min_count, 1)` for
`group_nth`, `group_last`, `group_min` and `group_max` (the last two via
`group_min_max`'s `compute_max` flag); and increasing `min_count` only turns
finite output cells into NA, never NA cells into finite values. -/
theorem minCount_thresholds (N K ncounts : ℕ) (values : ℕ → ℕ → Option ℚ)
    (labels : ℕ → ℤ) (mc mc' rank : ℤ) (dtl cm : Bool) (resx0 : ℤ → ℕ → ℚ)
    (counts0 : ℤ → ℤ) (out0 : ℕ → ℕ → Option ℚ) (g j : ℕ)
    (hg : g < ncounts) (hj : j < K) (hle : mc ≤ mc') :
    ((groupAdd N K ncounts values labels mc dtl counts0 out0).1 g j = none ↔
      ((addColVals N values labels dtl (g : ℤ) j).length : ℤ) < mc) ∧
    ((groupProd N K ncounts values labels mc counts0 out0).1 g j = none ↔
      ((groupColVals N values labels (g : ℤ) j).length : ℤ) < mc) ∧
    ((groupLast N K ncounts values labels mc resx0 counts0 out0).1 g j = none ↔
      ((groupColVals N values labels (g : ℤ) j).length : ℤ) < max mc 1) ∧
    ((groupNth N K ncounts values labels mc rank resx0 counts0 out0).1 g j = none ↔
      ((groupColVals N values labels (g : ℤ) j).length : ℤ) < max mc 1) ∧
    ((groupMinMax N K ncounts values labels mc cm counts0 out0).1 g j = none ↔
      ((groupColVals N values labels (g : ℤ) j).length : ℤ) < max mc 1) ∧
    ((groupAdd N K ncounts values labels mc dtl counts0 out0).1 g j = none →
      (groupAdd N K ncounts values labels mc' dtl counts0 out0).1 g j = none) ∧
    ((groupAdd N K ncounts values labels mc' dtl counts0 out0).1 g j ≠ none →
      (groupAdd N K ncounts values labels mc' dtl counts0 out0).1 g j =
        (groupAdd N K ncounts values labels mc dtl counts0 out0).1 g j) ∧
    ((groupProd N K ncounts values labels mc counts0 out0).1 g j = none →
      (groupProd N K ncounts values labels mc' counts0 out0).1 g j = none) ∧
    ((groupProd N K ncounts values labels mc' counts0 out0).1 g j ≠ none →
      (groupProd N K ncounts values labels mc' counts0 out0).1 g j =
        (groupProd N K ncounts values labels mc counts0 out0).1 g j) ∧
    ((groupLast N K ncounts values labels mc resx0 counts0 out0).1 g j = none →
      (groupLast N K ncounts values labels mc' resx0 counts0 out0).1 g j = none) ∧
    ((groupLast N K ncounts values labels mc' resx0 counts0 out0).1 g j ≠ none →
      (groupLast N K ncounts values labels mc' resx0 counts0 out0).1 g j =
        (groupLast N K ncounts values labels mc resx0 counts0 out0).1 g j) ∧
    ((groupNth N K ncounts values labels mc rank resx0 counts0 out0).1 g j = none →
      (groupNth N K ncounts values labels mc' rank resx0 counts0 out0).1 g j = none) ∧
    ((groupNth N K ncounts values labels mc' rank resx0 counts0 out0).1 g j ≠ none →
      (groupNth N K ncounts values labels mc' rank resx0 counts0 out0).1 g j =
        (groupNth N K ncounts values labels mc rank resx0 counts0 out0).1 g j) ∧
    ((groupMinMax N K ncounts values labels mc cm counts0 out0).1 g j = none →
      (groupMinMax N K ncounts values labels mc' cm counts0 out0).1 g j = none) ∧
    ((groupMinMax N K ncounts values labels mc' cm counts0 out0).1 g j ≠ none →
      (groupMinMax N K ncounts values labels mc' cm counts0 out0).1 g j =
        (groupMinMax N K ncounts values labels mc cm counts0 out0).1 g j) := by
  rw [groupAdd_char N K ncounts values labels mc dtl counts0 out0 g j hg hj,
    groupAdd_char N K ncounts values labels mc' dtl counts0 out0 g j hg hj,
    groupProd_char N K ncounts values labels mc counts0 out0 g j hg hj,
    groupProd_char N K ncounts values labels mc' counts0 out0 g j hg hj,
    groupLast_char N K ncounts values labels mc resx0 counts0 out0 g j hg hj,
    groupLast_char N K ncounts values labels mc' resx0 counts0 out0 g j hg hj,
    groupNth_char N K ncounts values labels mc rank resx0 counts0 out0 g j hg hj,
    groupNth_char N K ncounts values labels mc' rank resx0 counts0 out0 g j hg hj,
    groupMinMax_char N K ncounts values labels mc cm counts0 out0 g j hg hj,
    groupMinMax_char N K ncounts values labels mc' cm counts0 out0 g j hg hj]
  refine ⟨finalize_none_iff _ _, finalize_none_iff _ _, finalize_none_iff _ _,
    finalize_none_iff _ _, mm_none_iff cm mc _,
    (finalize_mono _ _ (by omega) _).1, (finalize_mono _ _ (by omega) _).2,
    (finalize_mono _ _ (by omega) _).1, (finalize_mono _ _ (by omega) _).2,
    (finalize_mono _ _ (by omega) _).1, (finalize_mono _ _ (by omega) _).2,
    (finalize_mono _ _ (by omega) _).1, (finalize_mono _ _ (by omega) _).2,
    (finalize_mono _ _ (by omega) _).1, (finalize_mono _ _ (by omega) _).2⟩

theorem minCount_thresholds_witness :
    ((groupAdd 1 1 1 (fun _ _ => some 3) (fun _ => 0) 0 false (fun _ => 0)
        (fun _ _ => none)).1 0 0 = none ↔
      ((addColVals 1 (fun _ _ => some 3) (fun _ => 0) false ((0 : ℕ) : ℤ) 0).length : ℤ)
        < 0) :=
  (minCount_thresholds 1 1 1 (fun _ _ => some 3) (fun _ => 0) 0 2 1 false true
    (fun _ _ => 0) (fun _ => 0) (fun _ _ => none) 0 0 (by decide) (by decide)
    (by decide)).1

/-! ## uint64 track of group_min_max, group_last, group_nth

For unsigned 64-bit values `_treat_as_na` is always false, so missingness can
only come from an external `mask`.  The finalize pass cannot represent NA
in-band: with a mask it sets `result_mask[i, j] = True`, without one it sets
a `runtime_error` flag, breaks out of the inner column loop, and the
`RuntimeError` is raised only after the (nogil) loops finish. -/

/-- `U64_MAX`, the `np.iinfo(np.uint64).max` sentinel. -/
def U64_MAX : ℕ := 2 ^ 64 - 1

/-- The NA test of the uint64 track: the external mask bit if a mask is
supplied, else `_treat_as_na`, which is constantly false for uint64. -/
def u64IsNA (mask : Option (ℕ → ℕ → Bool)) (i j : ℕ) : Bool :=
  match mask with
  | some m => m i j
  | none => false

def mmStepCellU64 (values : ℕ → ℕ → ℕ) (mask : Option (ℕ → ℕ → Bool))
    (compute_max : Bool) (i j : ℕ) (s : ℤ × ℕ) : ℤ × ℕ :=
  if u64IsNA mask i j then s
  else
    (s.1 + 1,
      if compute_max then (if values i j > s.2 then values i j else s.2)
      else (if values i j < s.2 then values i j else s.2))

def lastStepCellU64 (values : ℕ → ℕ → ℕ) (mask : Option (ℕ → ℕ → Bool))
    (i j : ℕ) (s : ℤ × ℕ) : ℤ × ℕ :=
  if u64IsNA mask i j then s else (s.1 + 1, values i j)

def nthStepCellU64 (values : ℕ → ℕ → ℕ) (mask : Option (ℕ → ℕ → Bool))
    (rank : ℤ) (i j : ℕ) (s : ℤ × ℕ) : ℤ × ℕ :=
  if u64IsNA mask i j then s
  else (s.1 + 1, if s.1 + 1 = rank then values i j else s.2)

/-- Result of the uint64 finalize pass: the output buffer, the result mask,
and the deferred-error flag. -/
structure U64Fin where
  out : ℕ → ℕ → ℕ
  rmask : ℕ → ℕ → Bool
  err : Bool

/-- The inner column loop of the uint64 finalize pass for one output row:
below-threshold cells set `result_mask` when a mask is in use (`group_min_max`
additionally zeroes `out`, `zero_out = true`); without a mask the error flag
is set and the column loop `break`s. -/
def u64FinGo (mc : ℤ) (uses_mask zero_out : Bool) (nobs : ℕ → ℕ → ℤ)
    (res : ℕ → ℕ → ℕ) (i : ℕ) : List ℕ → U64Fin → U64Fin
  | [], st => st
  | j :: js, st =>
      if nobs i j < mc then
        if uses_mask then
          u64FinGo mc uses_mask zero_out nobs res i js
            { st with rmask := upd2 st.rmask i j true
                      out := if zero_out then upd2 st.out i j 0 else st.out }
        else { st with err := true }
      else
        u64FinGo mc uses_mask zero_out nobs res i js
          { st with out := upd2 st.out i j (res i j) }

/-- The full uint64 finalize pass. -/
def u64Finalize (G K : ℕ) (mc : ℤ) (uses_mask zero_out : Bool)
    (nobs : ℕ → ℕ → ℤ) (res : ℕ → ℕ → ℕ) (out0 : ℕ → ℕ → ℕ)
    (rmask0 : ℕ → ℕ → Bool) : U64Fin :=
  (List.range G).foldl
    (fun st i => u64FinGo mc uses_mask zero_out nobs res i (List.range K) st)
    { out := out0, rmask := rmask0, err := false }

/-- Shallow embedding of `group_min_max`, uint64 track
(`min_count = max(min_count, 1)`; extremum initialised to `0` for max and
`U64_MAX` for min).  Returns the finalize result and `counts`. -/
def groupMinMaxU64 (N K ncounts : ℕ) (values : ℕ → ℕ → ℕ) (labels : ℕ → ℤ)
    (min_count : ℤ) (compute_max : Bool) (mask : Option (ℕ → ℕ → Bool))
    (counts0 : ℤ → ℤ) (out0 : ℕ → ℕ → ℕ) (rmask0 : ℕ → ℕ → Bool) :
    U64Fin × (ℤ → ℤ) :=
  ((fun st => (u64Finalize ncounts K (max min_count 1) mask.isSome true
      (fun g j => (st.cell (g : ℤ) j).1) (fun g j => (st.cell (g : ℤ) j).2)
      out0 rmask0, st.counts))
    (accumulate N K labels (mmStepCellU64 values mask compute_max)
      { counts := counts0
        cell := fun _ _ => (0, if compute_max then 0 else U64_MAX) }))

/-- `group_min_max` uint64 with the `RuntimeError` raised after the loops. -/
def groupMinMaxU64Run (N K ncounts : ℕ) (values : ℕ → ℕ → ℕ) (labels : ℕ → ℤ)
    (min_count : ℤ) (compute_max : Bool) (mask : Option (ℕ → ℕ → Bool))
    (counts0 : ℤ → ℤ) (out0 : ℕ → ℕ → ℕ) (rmask0 : ℕ → ℕ → Bool) :
    Except String (U64Fin × (ℤ → ℤ)) :=
  if (groupMinMaxU64 N K ncounts values labels min_count compute_max mask
      counts0 out0 rmask0).1.err
  then Except.error "empty group with uint64_t"
  else Except.ok (groupMinMaxU64 N K ncounts values labels min_count compute_max
    mask counts0 out0 rmask0)

/-- Shallow embedding of `group_last`, uint64 track (its finalize does not
zero `out` under a mask: `zero_out = false`). -/
def groupLastU64 (N K ncounts : ℕ) (values : ℕ → ℕ → ℕ) (labels : ℕ → ℤ)
    (min_count : ℤ) (mask : Option (ℕ → ℕ → Bool)) (resx0 : ℤ → ℕ → ℕ)
    (counts0 : ℤ → ℤ) (out0 : ℕ → ℕ → ℕ) (rmask0 : ℕ → ℕ → Bool) :
    U64Fin × (ℤ → ℤ) :=
  ((fun st => (u64Finalize ncounts K (max min_count 1) mask.isSome false
      (fun g j => (st.cell (g : ℤ) j).1) (fun g j => (st.cell (g : ℤ) j).2)
      out0 rmask0, st.counts))
    (accumulate N K labels (lastStepCellU64 values mask)
      { counts := counts0, cell := fun g j => (0, resx0 g j) }))

def groupLastU64Run (N K ncounts : ℕ) (values : ℕ → ℕ → ℕ) (labels : ℕ → ℤ)
    (min_count : ℤ) (mask : Option (ℕ → ℕ → Bool)) (resx0 : ℤ → ℕ → ℕ)
    (counts0 : ℤ → ℤ) (out0 : ℕ → ℕ → ℕ) (rmask0 : ℕ → ℕ → Bool) :
    Except String (U64Fin × (ℤ → ℤ)) :=
  if (groupLastU64 N K ncounts values labels min_count mask resx0 counts0 out0
      rmask0).1.err
  then Except.error "empty group with uint64_t"
  else Except.ok (groupLastU64 N K ncounts values labels min_count mask resx0
    counts0 out0 rmask0)

/-- Shallow embedding of `group_nth`, uint64 track. -/
def groupNthU64 (N K ncounts : ℕ) (values : ℕ → ℕ → ℕ) (labels : ℕ → ℤ)
    (min_count rank : ℤ) (mask : Option (ℕ → ℕ → Bool)) (resx0 : ℤ → ℕ → ℕ)
    (counts0 : ℤ → ℤ) (out0 : ℕ → ℕ → ℕ) (rmask0 : ℕ → ℕ → Bool) :
    U64Fin × (ℤ → ℤ) :=
  ((fun st => (u64Finalize ncounts K (max min_count 1) mask.isSome false
      (fun g j => (st.cell (g : ℤ) j).1) (fun g j => (st.cell (g : ℤ) j).2)
      out0 rmask0, st.counts))
    (accumulate N K labels (nthStepCellU64 values mask rank)
      { counts := counts0, cell := fun g j => (0, resx0 g j) }))

def groupNthU64Run (N K ncounts : ℕ) (values : ℕ → ℕ → ℕ) (labels : ℕ → ℤ)
    (min_count rank : ℤ) (mask : Option (ℕ → ℕ → Bool)) (resx0 : ℤ → ℕ → ℕ)
    (counts0 : ℤ → ℤ) (out0 : ℕ → ℕ → ℕ) (rmask0 : ℕ → ℕ → Bool) :
    Except String (U64Fin × (ℤ → ℤ)) :=
  if (groupNthU64 N K ncounts values labels min_count rank mask resx0 counts0
      out0 rmask0).1.err
  then Except.error "empty group with uint64_t"
  else Except.ok (groupNthU64 N K ncounts values labels min_count rank mask
    resx0 counts0 out0 rmask0)

theorem u64FinGo_err (mc : ℤ) (um zo : Bool) (nobs : ℕ → ℕ → ℤ)
    (res : ℕ → ℕ → ℕ) (i : ℕ) :
    ∀ (js : List ℕ) (st : U64Fin),
      ((u64FinGo mc um zo nobs res i js st).err = true ↔
        st.err = true ∨ (um = false ∧ ∃ j ∈ js, nobs i j < mc)) := by
  intro js
  induction js with
  | nil =>
    intro st
    simp [u64FinGo]
  | cons j js ih =>
    intro st
    unfold u64FinGo
    by_cases hb : nobs i j < mc
    · rw [if_pos hb]
      cases um with
      | false =>
        rw [if_neg Bool.false_ne_true]
        constructor
        · intro _
          exact Or.inr ⟨rfl, j, List.mem_cons_self j js, hb⟩
        · intro _
          rfl
      | true =>
        rw [if_pos rfl, ih]
        constructor
        · rintro (h | ⟨hum, _⟩)
          · exact Or.inl h
          · exact absurd hum (by simp)
        · rintro (h | ⟨hum, _⟩)
          · exact Or.inl h
          · exact absurd hum (by simp)
    · rw [if_neg hb, ih]
      constructor
      · rintro (h | ⟨hum, j', hj', hlt⟩)
        · exact Or.inl h
        · exact Or.inr ⟨hum, j', List.mem_cons_of_mem _ hj', hlt⟩
      · rintro (h | ⟨hum, j', hj', hlt⟩)
        · exact Or.inl h
        · rcases List.mem_cons.mp hj' with h1 | h1
          · subst h1
            exact absurd hlt hb
          · exact Or.inr ⟨hum, j', h1, hlt⟩

theorem u64Finalize_err (G K : ℕ) (mc : ℤ) (um zo : Bool) (nobs : ℕ → ℕ → ℤ)
    (res : ℕ → ℕ → ℕ) (out0 : ℕ → ℕ → ℕ) (rmask0 : ℕ → ℕ → Bool) :
    ((u64Finalize G K mc um zo nobs res out0 rmask0).err = true ↔
      um = false ∧ ∃ g ∈ List.range G, ∃ j ∈ List.range K, nobs g j < mc) := by
  unfold u64Finalize
  have main : ∀ (gs : List ℕ) (st : U64Fin),
      ((gs.foldl (fun st i => u64FinGo mc um zo nobs res i (List.range K) st)
          st).err = true ↔
        st.err = true ∨ (um = false ∧ ∃ g ∈ gs, ∃ j ∈ List.range K, nobs g j < mc)) := by
    intro gs
    induction gs with
    | nil => intro st; simp
    | cons g gs ih =>
      intro st
      rw [List.foldl_cons, ih, u64FinGo_err]
      constructor
      · rintro ((h | ⟨hum, hj⟩) | ⟨hum, g', hg', hj⟩)
        · exact Or.inl h
        · exact Or.inr ⟨hum, g, List.mem_cons_self g gs, hj⟩
        · exact Or.inr ⟨hum, g', List.mem_cons_of_mem _ hg', hj⟩
      · rintro (h | ⟨hum, g', hg', hj⟩)
        · exact Or.inl (Or.inl h)
        · rcases List.mem_cons.mp hg' with h1 | h1
          · subst h1
            exact Or.inl (Or.inr ⟨hum, hj⟩)
          · exact Or.inr ⟨hum, g', h1, hj⟩
  rw [main]
  simp

theorem u64FinGo_rmask_mono (mc : ℤ) (um zo : Bool) (nobs : ℕ → ℕ → ℤ)
    (res : ℕ → ℕ → ℕ) (i : ℕ) :
    ∀ (js : List ℕ) (st : U64Fin) (a b : ℕ), st.rmask a b = true →
      (u64FinGo mc um zo nobs res i js st).rmask a b = true := by
  intro js
  induction js with
  | nil => intro st a b h; exact h
  | cons j js ih =>
    intro st a b h
    unfold u64FinGo
    by_cases hb : nobs i j < mc
    · rw [if_pos hb]
      cases um with
      | false =>
        rw [if_neg Bool.false_ne_true]
        exact h
      | true =>
        rw [if_pos rfl]
        refine ih _ a b ?_
        show upd2 st.rmask i j true a b = true
        unfold upd2
        by_cases hc : a = i ∧ b = j
        · rw [if_pos hc]
        · rw [if_neg hc]; exact h
    · rw [if_neg hb]
      exact ih _ a b h

theorem u64FinGo_rmask_set (mc : ℤ) (zo : Bool) (nobs : ℕ → ℕ → ℤ)
    (res : ℕ → ℕ → ℕ) (i : ℕ) :
    ∀ (js : List ℕ) (st : U64Fin) (j : ℕ), j ∈ js → nobs i j < mc →
      (u64FinGo mc true zo nobs res i js st).rmask i j = true := by
  intro js
  induction js with
  | nil => intro st j hj; simp at hj
  | cons j' js ih =>
    intro st j hj hlt
    unfold u64FinGo
    by_cases hb : nobs i j' < mc
    · rw [if_pos hb, if_pos rfl]
      by_cases hjj : j = j'
      · subst hjj
        refine u64FinGo_rmask_mono mc true zo nobs res i js _ i j ?_
        show upd2 st.rmask i j true i j = true
        rw [upd2_same]
      · exact ih _ j ((List.mem_cons.mp hj).resolve_left hjj) hlt
    · rw [if_neg hb]
      by_cases hjj : j = j'
      · subst hjj
        exact absurd hlt hb
      · exact ih _ j ((List.mem_cons.mp hj).resolve_left hjj) hlt

theorem u64Fold_rmask_mono (K : ℕ) (mc : ℤ) (um zo : Bool) (nobs : ℕ → ℕ → ℤ)
    (res : ℕ → ℕ → ℕ) :
    ∀ (gs : List ℕ) (st : U64Fin) (a b : ℕ), st.rmask a b = true →
      (gs.foldl (fun st i => u64FinGo mc um zo nobs res i (List.range K) st)
        st).rmask a b = true := by
  intro gs
  induction gs with
  | nil => intro st a b h; exact h
  | cons g' gs ih =>
    intro st a b h
    rw [List.foldl_cons]
    exact ih _ a b (u64FinGo_rmask_mono mc um zo nobs res g' (List.range K) st a b h)

theorem u64Finalize_rmask_set (G K : ℕ) (mc : ℤ) (zo : Bool)
    (nobs : ℕ → ℕ → ℤ) (res : ℕ → ℕ → ℕ) (out0 : ℕ → ℕ → ℕ)
    (rmask0 : ℕ → ℕ → Bool) (g j : ℕ) (hg : g < G) (hj : j < K)
    (hlt : nobs g j < mc) :
    (u64Finalize G K mc true zo nobs res out0 rmask0).rmask g j = true := by
  unfold u64Finalize
  have main : ∀ (gs : List ℕ) (st : U64Fin), g ∈ gs →
      (gs.foldl (fun st i => u64FinGo mc true zo nobs res i (List.range K) st)
        st).rmask g j = true := by
    intro gs
    induction gs with
    | nil => intro st hgs; simp at hgs
    | cons g' gs ih =>
      intro st hgs
      rw [List.foldl_cons]
      by_cases hgg : g = g'
      · subst hgg
        exact u64Fold_rmask_mono K mc true zo nobs res gs _ g j
          (u64FinGo_rmask_set mc zo nobs res g (List.range K) st j
            (List.mem_range.mpr hj) hlt)
      · exact ih _ ((List.mem_cons.mp hgs).resolve_left hgg)
  exact main (List.range G) _ (List.mem_range.mpr hg)

theorem foldRows_count {β : Type} (step : ℕ → (ℤ × β) → (ℤ × β))
    (h : ∀ i s, (step i s).1 = s.1 + 1) :
    ∀ (l : List ℕ) (s : ℤ × β),
      (l.foldl (fun acc i => step i acc) s).1 = s.1 + (l.length : ℤ) := by
  intro l
  induction l with
  | nil => intro s; simp
  | cons i l ih =>
    intro s
    rw [List.foldl_cons, ih (step i s), h i s]
    simp only [List.length_cons]
    push_cast
    ring

/-- Without a mask, every uint64 cell's `nobs` is the full group size
(`_treat_as_na` is constantly false for uint64). -/
theorem u64_cell_count {β : Type} (N K : ℕ) (labels : ℕ → ℤ)
    (step : ℕ → ℕ → (ℤ × β) → (ℤ × β))
    (hstep : ∀ i j s, (step i j s).1 = s.1 + 1)
    (init : ℤ → ℕ → (ℤ × β)) (hinit : ∀ g j, (init g j).1 = 0)
    (counts0 : ℤ → ℤ) (g : ℤ) (j : ℕ) (hg : 0 ≤ g) (hj : j < K) :
    ((accumulate N K labels step { counts := counts0, cell := init }).cell g j).1 =
      (((List.range N).filter (fun i => labels i == g)).length : ℤ) := by
  unfold accumulate
  rw [accumulate_cell_fold K labels step (List.range N) _ g j hg hj]
  have h1 := foldRows_count (fun i s => step i j s) (fun i s => hstep i j s)
    ((List.range N).filter (fun i => labels i == g)) (init g j)
  rw [h1, hinit g j, zero_add]

theorem run_error_iff {α : Type} (b : Bool) (x : α) (msg : String) :
    ((if b then Except.error msg else Except.ok x) = Except.error msg) ↔
      b = true := by
  cases b <;> simp

theorem groupMinMaxU64_err_iff (N K ncounts : ℕ) (values : ℕ → ℕ → ℕ)
    (labels : ℕ → ℤ) (mc : ℤ) (cm : Bool) (counts0 : ℤ → ℤ)
    (out0 : ℕ → ℕ → ℕ) (rmask0 : ℕ → ℕ → Bool) :
    ((groupMinMaxU64 N K ncounts values labels mc cm none counts0 out0
        rmask0).1.err = true ↔
      ∃ g' < ncounts, ∃ j' < K,
        ((((List.range N).filter (fun i => labels i == ((g' : ℕ) : ℤ))).length : ℤ)
          < max mc 1)) := by
  unfold groupMinMaxU64
  dsimp only
  rw [u64Finalize_err]
  constructor
  · rintro ⟨_, g', hg', j', hj', hlt⟩
    rw [u64_cell_count N K labels (mmStepCellU64 values none cm)
      (fun i j s => rfl) _ (fun g j => rfl) counts0 ((g' : ℕ) : ℤ) j'
      (by positivity) (List.mem_range.mp hj')] at hlt
    exact ⟨g', List.mem_range.mp hg', j', List.mem_range.mp hj', hlt⟩
  · rintro ⟨g', hg', j', hj', hlt⟩
    refine ⟨rfl, g', List.mem_range.mpr hg', j', List.mem_range.mpr hj', ?_⟩
    rw [u64_cell_count N K labels (mmStepCellU64 values none cm)
      (fun i j s => rfl) _ (fun g j => rfl) counts0 ((g' : ℕ) : ℤ) j'
      (by positivity) hj']
    exact hlt

theorem groupLastU64_err_iff (N K ncounts : ℕ) (values : ℕ → ℕ → ℕ)
    (labels : ℕ → ℤ) (mc : ℤ) (resx0 : ℤ → ℕ → ℕ) (counts0 : ℤ → ℤ)
    (out0 : ℕ → ℕ → ℕ) (rmask0 : ℕ → ℕ → Bool) :
    ((groupLastU64 N K ncounts values labels mc none resx0 counts0 out0
        rmask0).1.err = true ↔
      ∃ g' < ncounts, ∃ j' < K,
        ((((List.range N).filter (fun i => labels i == ((g' : ℕ) : ℤ))).length : ℤ)
          < max mc 1)) := by
  unfold groupLastU64
  dsimp only
  rw [u64Finalize_err]
  constructor
  · rintro ⟨_, g', hg', j', hj', hlt⟩
    rw [u64_cell_count N K labels (lastStepCellU64 values none)
      (fun i j s => rfl) _ (fun g j => rfl) counts0 ((g' : ℕ) : ℤ) j'
      (by positivity) (List.mem_range.mp hj')] at hlt
    exact ⟨g', List.mem_range.mp hg', j', List.mem_range.mp hj', hlt⟩
  · rintro ⟨g', hg', j', hj', hlt⟩
    refine ⟨rfl, g', List.mem_range.mpr hg', j', List.mem_range.mpr hj', ?_⟩
    rw [u64_cell_count N K labels (lastStepCellU64 values none)
      (fun i j s => rfl) _ (fun g j => rfl) counts0 ((g' : ℕ) : ℤ) j'
      (by positivity) hj']
    exact hlt

theorem groupNthU64_err_iff (N K ncounts : ℕ) (values : ℕ → ℕ → ℕ)
    (labels : ℕ → ℤ) (mc rank : ℤ) (resx0 : ℤ → ℕ → ℕ) (counts0 : ℤ → ℤ)
    (out0 : ℕ → ℕ → ℕ) (rmask0 : ℕ → ℕ → Bool) :
    ((groupNthU64 N K ncounts values labels mc rank none resx0 counts0 out0
        rmask0).1.err = true ↔
      ∃ g' < ncounts, ∃ j' < K,
        ((((List.range N).filter (fun i => labels i == ((g' : ℕ) : ℤ))).length : ℤ)
          < max mc 1)) := by
  unfold groupNthU64
  dsimp only
  rw [u64Finalize_err]
  constructor
  · rintro ⟨_, g', hg', j', hj', hlt⟩
    rw [u64_cell_count N K labels (nthStepCellU64 values none rank)
      (fun i j s => rfl) _ (fun g j => rfl) counts0 ((g' : ℕ) : ℤ) j'
      (by positivity) (List.mem_range.mp hj')] at hlt
    exact ⟨g', List.mem_range.mp hg', j', List.mem_range.mp hj', hlt⟩
  · rintro ⟨g', hg', j', hj', hlt⟩
    refine ⟨rfl, g', List.mem_range.mpr hg', j', List.mem_range.mpr hj', ?_⟩
    rw [u64_cell_count N K labels (nthStepCellU64 values none rank)
      (fun i j s => rfl) _ (fun g j => rfl) counts0 ((g' : ℕ) : ℤ) j'
      (by positivity) hj']
    exact hlt

/-- C7: for the uint64 reducers (`group_min`/`group_max` via
`group_min_max`'s `compute_max`, `group_last`, `group_nth`) with no mask
supplied (hence no result mask in use), the kernel fails with the
`RuntimeError "empty group with uint64_t"` — the `EmptyGroupUnsignedError`
kind — exactly when the finalize pass finds an output cell whose non-NA
count is below `max(min_count, 1)`; the error flag is only set inside the
loop and raised after it exits, so `counts` is fully populated even on the
error path. -/
theorem u64EmptyGroup_error (N K ncounts : ℕ) (values : ℕ → ℕ → ℕ)
    (labels : ℕ → ℤ) (mc rank : ℤ) (cm : Bool) (resx0 : ℤ → ℕ → ℕ)
    (counts0 : ℤ → ℤ) (out0 : ℕ → ℕ → ℕ) (rmask0 : ℕ → ℕ → Bool)
    (g : ℤ) (hg : 0 ≤ g) :
    (groupMinMaxU64Run N K ncounts values labels mc cm none counts0 out0 rmask0 =
        Except.error "empty group with uint64_t" ↔
      ∃ g' < ncounts, ∃ j' < K,
        ((((List.range N).filter (fun i => labels i == ((g' : ℕ) : ℤ))).length : ℤ)
          < max mc 1)) ∧
    (groupLastU64Run N K ncounts values labels mc none resx0 counts0 out0 rmask0 =
        Except.error "empty group with uint64_t" ↔
      ∃ g' < ncounts, ∃ j' < K,
        ((((List.range N).filter (fun i => labels i == ((g' : ℕ) : ℤ))).length : ℤ)
          < max mc 1)) ∧
    (groupNthU64Run N K ncounts values labels mc rank none resx0 counts0 out0
        rmask0 =
        Except.error "empty group with uint64_t" ↔
      ∃ g' < ncounts, ∃ j' < K,
        ((((List.range N).filter (fun i => labels i == ((g' : ℕ) : ℤ))).length : ℤ)
          < max mc 1)) ∧
    ((groupMinMaxU64 N K ncounts values labels mc cm none counts0 out0 rmask0).2 g =
      counts0 g + (((List.range N).filter (fun i => labels i == g)).length : ℤ)) ∧
    ((groupLastU64 N K ncounts values labels mc none resx0 counts0 out0 rmask0).2 g =
      counts0 g + (((List.range N).filter (fun i => labels i == g)).length : ℤ)) ∧
    ((groupNthU64 N K ncounts values labels mc rank none resx0 counts0 out0
        rmask0).2 g =
      counts0 g + (((List.range N).filter (fun i => labels i == g)).length : ℤ)) := by
  refine ⟨?_, ?_, ?_, ?_, ?_, ?_⟩
  · unfold groupMinMaxU64Run
    rw [run_error_iff]
    exact groupMinMaxU64_err_iff N K ncounts values labels mc cm counts0 out0 rmask0
  · unfold groupLastU64Run
    rw [run_error_iff]
    exact groupLastU64_err_iff N K ncounts values labels mc resx0 counts0 out0 rmask0
  · unfold groupNthU64Run
    rw [run_error_iff]
    exact groupNthU64_err_iff N K ncounts values labels mc rank resx0 counts0 out0
      rmask0
  · unfold groupMinMaxU64
    dsimp only
    exact accumulate_counts_fold K labels _ (List.range N) _ g hg
  · unfold groupLastU64
    dsimp only
    exact accumulate_counts_fold K labels _ (List.range N) _ g hg
  · unfold groupNthU64
    dsimp only
    exact accumulate_counts_fold K labels _ (List.range N) _ g hg

theorem u64EmptyGroup_error_witness :
    groupMinMaxU64Run 0 1 1 (fun _ _ => 0) (fun _ => 0) (-1) true none
        (fun _ => 0) (fun _ _ => 0) (fun _ _ => false) =
      Except.error "empty group with uint64_t" :=
  (u64EmptyGroup_error 0 1 1 (fun _ _ => 0) (fun _ => 0) (-1) 1 true
    (fun _ _ => 0) (fun _ => 0) (fun _ _ => 0) (fun _ _ => false) 0
    (by decide)).1.mpr ⟨0, by decide, 0, by decide, by decide⟩

/-- If every row of the group is masked, the uint64 min/max cell keeps
`nobs = 0`. -/
theorem u64_allmasked_cell (N K : ℕ) (values : ℕ → ℕ → ℕ) (labels : ℕ → ℤ)
    (m : ℕ → ℕ → Bool) (cm : Bool) (counts0 : ℤ → ℤ) (g : ℤ) (j : ℕ)
    (hg : 0 ≤ g) (hj : j < K)
    (hmask : ∀ i, i < N → labels i = g → m i j = true) :
    ((accumulate N K labels (mmStepCellU64 values (some m) cm)
      { counts := counts0
        cell := fun _ _ => (0, if cm then 0 else U64_MAX) }).cell g j).1 = 0 := by
  unfold accumulate
  rw [accumulate_cell_fold K labels _ (List.range N) _ g j hg hj]
  have hfold : ∀ (l : List ℕ), (∀ i ∈ l, m i j = true) → ∀ s : ℤ × ℕ,
      (l.foldl (fun acc i => mmStepCellU64 values (some m) cm i j acc) s) = s := by
    intro l
    induction l with
    | nil => intro _ s; rfl
    | cons i l ih =>
      intro h s
      rw [List.foldl_cons]
      have hstep : mmStepCellU64 values (some m) cm i j s = s := by
        unfold mmStepCellU64 u64IsNA
        simp [h i (List.mem_cons_self i l)]
      rw [hstep]
      exact ih (fun i' hi' => h i' (List.mem_cons_of_mem _ hi')) s
  rw [hfold _ (fun i hi => ?_)]
  rw [List.mem_filter] at hi
  exact hmask i (List.mem_range.mp hi.1) (by simpa using hi.2)

/-- C4 (amended): every reducer output cell whose group contributed zero
non-NA values holds the NA representation of its element type (float: NaN),
or sets `result_mask[g, j]` when a result mask is in use — except `group_add`
and `group_prod` with `min_count ≤ 0` (their default 0 included), whose
zero-contribution cells hold the accumulator identity, `0` for sum and `1`
for product. -/
theorem naPurity_empty (N K ncounts : ℕ) (values : ℕ → ℕ → Option ℚ)
    (valuesU : ℕ → ℕ → ℕ) (labels : ℕ → ℤ) (mc rank ddof : ℤ) (dtl cm : Bool)
    (resx0 : ℤ → ℕ → ℚ) (resx0U : ℤ → ℕ → ℕ) (mU : ℕ → ℕ → Bool)
    (counts0 : ℤ → ℤ) (out0 : ℕ → ℕ → Option ℚ) (out0U : ℕ → ℕ → ℕ)
    (rmask0 : ℕ → ℕ → Bool) (g j : ℕ) (hg : g < ncounts) (hj : j < K)
    (hempty : ∀ i, i < N → labels i = ((g : ℕ) : ℤ) → values i j = none)
    (hmaskU : ∀ i, i < N → labels i = ((g : ℕ) : ℤ) → mU i j = true)
    (hddof : 0 ≤ ddof) :
    (1 ≤ mc → (groupAdd N K ncounts values labels mc dtl counts0 out0).1 g j = none) ∧
    (mc ≤ 0 → (groupAdd N K ncounts values labels mc dtl counts0 out0).1 g j = some 0) ∧
    (1 ≤ mc → (groupProd N K ncounts values labels mc counts0 out0).1 g j = none) ∧
    (mc ≤ 0 → (groupProd N K ncounts values labels mc counts0 out0).1 g j = some 1) ∧
    (groupLast N K ncounts values labels mc resx0 counts0 out0).1 g j = none ∧
    (groupNth N K ncounts values labels mc rank resx0 counts0 out0).1 g j = none ∧
    (groupMinMax N K ncounts values labels mc cm counts0 out0).1 g j = none ∧
    (groupVar N K ncounts values labels ddof counts0).1 g j = none ∧
    (groupMinMaxU64 N K ncounts valuesU labels mc cm (some mU) counts0 out0U
      rmask0).1.rmask g j = true := by
  have hG : groupColVals N values labels ((g : ℕ) : ℤ) j = [] := by
    unfold groupColVals
    rw [List.filterMap_eq_nil]
    intro i hi
    rw [List.mem_filter] at hi
    exact hempty i (List.mem_range.mp hi.1) (by simpa using hi.2)
  have hA : addColVals N values labels dtl ((g : ℕ) : ℤ) j = [] := by
    unfold addColVals
    rw [List.filterMap_eq_nil]
    intro i hi
    rw [List.mem_filter] at hi
    unfold addNA
    rw [hempty i (List.mem_range.mp hi.1) (by simpa using hi.2)]
  refine ⟨?_, ?_, ?_, ?_, ?_, ?_, ?_, ?_, ?_⟩
  · intro hmc
    rw [groupAdd_char N K ncounts values labels mc dtl counts0 out0 g j hg hj, hA]
    simp only [List.length_nil, Nat.cast_zero]
    rw [if_pos (by omega)]
  · intro hmc
    rw [groupAdd_char N K ncounts values labels mc dtl counts0 out0 g j hg hj, hA]
    simp only [List.length_nil, Nat.cast_zero]
    rw [if_neg (by omega)]
    rfl
  · intro hmc
    rw [groupProd_char N K ncounts values labels mc counts0 out0 g j hg hj, hG]
    simp only [List.length_nil, Nat.cast_zero]
    rw [if_pos (by omega)]
  · intro hmc
    rw [groupProd_char N K ncounts values labels mc counts0 out0 g j hg hj, hG]
    simp only [List.length_nil, Nat.cast_zero]
    rw [if_neg (by omega)]
    rfl
  · rw [groupLast_char N K ncounts values labels mc resx0 counts0 out0 g j hg hj, hG]
    simp only [List.length_nil, Nat.cast_zero]
    rw [if_pos (by omega)]
  · rw [groupNth_char N K ncounts values labels mc rank resx0 counts0 out0 g j hg hj,
      hG]
    simp only [List.length_nil, Nat.cast_zero]
    rw [if_pos (by omega)]
  · rw [groupMinMax_char N K ncounts values labels mc cm counts0 out0 g j hg hj, hG]
    simp only [List.length_nil, Nat.cast_zero]
    rw [if_pos (by omega)]
  · rw [groupVar_char N K ncounts values labels ddof counts0 g j hg hj, hG]
    have hw : (welford ([] : List ℚ)).1 = 0 := rfl
    rw [hw, if_pos hddof]
  · unfold groupMinMaxU64
    dsimp only
    refine u64Finalize_rmask_set ncounts K (max mc 1) true _ _ out0U rmask0 g j
      hg hj ?_
    have hcell := u64_allmasked_cell N K valuesU labels mU cm counts0
      ((g : ℕ) : ℤ) j (by positivity) hj hmaskU
    rw [hcell]
    omega

/-- C4, counterexample to the original claim: with the default
`min_count = 0`, a `group_add` cell with zero non-NA contributions holds
`0.0` (and `group_prod` holds `1.0`), not the NA representation. -/
theorem naPurity_empty_cex :
    (groupAdd 1 1 1 (fun _ _ => none) (fun _ => 0) 0 false (fun _ => 0)
        (fun _ _ => some 99)).1 0 0 = some 0 ∧
    (groupProd 1 1 1 (fun _ _ => none) (fun _ => 0) 0 (fun _ => 0)
        (fun _ _ => some 99)).1 0 0 = some 1 := by
  constructor <;> decide

theorem naPurity_empty_witness :
    (groupLast 1 1 1 (fun _ _ => none) (fun _ => 0) (-1) (fun _ _ => 7)
        (fun _ => 0) (fun _ _ => some 99)).1 0 0 = none :=
  (naPurity_empty 1 1 1 (fun _ _ => none) (fun _ _ => 0) (fun _ => 0) (-1) 1 1
    false true (fun _ _ => 7) (fun _ _ => 0) (fun _ _ => true) (fun _ => 0)
    (fun _ _ => some 99) (fun _ _ => 0) (fun _ _ => false) 0 0 (by decide)
    (by decide) (fun _ _ _ => rfl) (fun _ _ _ => rfl) (by decide)).2.2.2.2.1

/-! ## group_any_all -/

/-- `group_any_all` cell update at row `i`, column `j` (the source's three
branches: skip under `skipna`, Kleene `-1` under `nullable`, absorb
`flag_val`). -/
def anyAllStep (values : ℕ → ℕ → ℤ) (mask : ℕ → ℕ → Bool)
    (skipna nullable : Bool) (flag_val : ℤ) (i j : ℕ) (o : ℤ) : ℤ :=
  if skipna ∧ mask i j then o
  else if nullable ∧ mask i j then (if o ≠ flag_val then -1 else o)
  else if values i j = flag_val then flag_val else o

/-- The row/column scan of `group_any_all` (no `counts` in this kernel); the
output is initialised to `1 - flag_val` everywhere. -/
def cellScan {σ : Type} (N K : ℕ) (labels : ℕ → ℤ) (step : ℕ → ℕ → σ → σ)
    (cell0 : ℤ → ℕ → σ) : ℤ → ℕ → σ :=
  (List.range N).foldl
    (fun c i => if labels i < 0 then c
      else (List.range K).foldl
        (fun c' j => updCell c' (labels i) j (step i j (c' (labels i) j))) c)
    cell0

def anyAllBody (N K : ℕ) (values : ℕ → ℕ → ℤ) (labels : ℕ → ℤ)
    (mask : ℕ → ℕ → Bool) (skipna nullable : Bool) (flag_val : ℤ) :
    ℤ → ℕ → ℤ :=
  cellScan N K labels (anyAllStep values mask skipna nullable flag_val)
    (fun _ _ => 1 - flag_val)

/-- Shallow embedding of `group_any_all`: `flag_val = 0` for `'all'`, `1` for
`'any'`, `ValueError` otherwise. -/
def groupAnyAll (N K : ℕ) (values : ℕ → ℕ → ℤ) (labels : ℕ → ℤ)
    (mask : ℕ → ℕ → Bool) (val_test : String) (skipna nullable : Bool) :
    Except String (ℤ → ℕ → ℤ) :=
  if val_test = "all" then
    Except.ok (anyAllBody N K values labels mask skipna nullable 0)
  else if val_test = "any" then
    Except.ok (anyAllBody N K values labels mask skipna nullable 1)
  else Except.error "'bool_func' must be either 'any' or 'all'!"

/-- View an `Except`-returning kernel's output at one cell. -/
def exceptCell (r : Except String (ℤ → ℕ → ℤ)) (g : ℤ) (j : ℕ) : Option ℤ :=
  r.toOption.map (fun f => f g j)

theorem cellScan_fold {σ : Type} (K : ℕ) (labels : ℕ → ℤ)
    (step : ℕ → ℕ → σ → σ) :
    ∀ (l : List ℕ) (c : ℤ → ℕ → σ) (g : ℤ) (j : ℕ), 0 ≤ g → j < K →
      (l.foldl
        (fun c i => if labels i < 0 then c
          else (List.range K).foldl
            (fun c' j => updCell c' (labels i) j (step i j (c' (labels i) j))) c)
        c) g j =
        (l.filter (fun i => labels i == g)).foldl (fun acc i => step i j acc)
          (c g j) := by
  intro l
  induction l with
  | nil => intro c g j _ _; rfl
  | cons i l ih =>
    intro c g j hg hj
    rw [List.foldl_cons, ih _ g j hg hj, List.filter_cons]
    by_cases hlab : labels i < 0
    · have hbeq : (labels i == g) = false := by
        simp only [beq_eq_false_iff_ne, ne_eq]
        omega
      rw [hbeq, if_pos hlab]
      simp
    · rw [if_neg hlab]
      rw [colsFold_eq (labels i) step i (List.range K) (List.nodup_range K) c g j]
      by_cases hgi : labels i = g
      · have hbeq : (labels i == g) = true := by simp [hgi]
        rw [hbeq, if_pos ⟨hgi.symm, List.mem_range.mpr hj⟩, if_pos rfl,
          List.foldl_cons]
      · have hbeq : (labels i == g) = false := by simp [hgi]
        rw [hbeq, if_neg (fun hand => hgi hand.1.symm),
          if_neg Bool.false_ne_true]

theorem anyAllStep_kleene (values : ℕ → ℕ → ℤ) (mask : ℕ → ℕ → Bool) (fv : ℤ)
    (i j : ℕ) (o : ℤ) :
    anyAllStep values mask false true fv i j o =
      if mask i j = true then (if o ≠ fv then -1 else o)
      else (if values i j = fv then fv else o) := by
  simp [anyAllStep]

/-- Full characterization of the Kleene (`nullable = true`, `skipna = false`)
fold: a decisive value forces `flag_val`, else a masked cell forces `-1`,
else the start value survives. -/
theorem kleeneFold (values : ℕ → ℕ → ℤ) (mask : ℕ → ℕ → Bool) (fv : ℤ)
    (j : ℕ) (hfv : fv = 0 ∨ fv = 1) :
    ∀ (l : List ℕ) (s : ℤ),
      l.foldl (fun o i => anyAllStep values mask false true fv i j o) s =
        if s = fv ∨ ∃ i ∈ l, mask i j = false ∧ values i j = fv then fv
        else if s = -1 ∨ ∃ i ∈ l, mask i j = true then -1
        else s := by
  have hfv1 : (-1 : ℤ) ≠ fv := by omega
  intro l
  induction l with
  | nil =>
    intro s
    rw [List.foldl_nil]
    have h1 : ¬∃ i ∈ ([] : List ℕ), mask i j = false ∧ values i j = fv := by
      rintro ⟨i, hi, _⟩
      simp at hi
    have h2 : ¬∃ i ∈ ([] : List ℕ), mask i j = true := by
      rintro ⟨i, hi, _⟩
      simp at hi
    by_cases hsv : s = fv
    · rw [if_pos (Or.inl hsv), hsv]
    · rw [if_neg (fun hand => hand.elim hsv h1)]
      by_cases hs1 : s = -1
      · rw [if_pos (Or.inl hs1), hs1]
      · rw [if_neg (fun hand => hand.elim hs1 h2)]
  | cons i l ih =>
    intro s
    have hdec : (∃ i' ∈ i :: l, mask i' j = false ∧ values i' j = fv) ↔
        ((mask i j = false ∧ values i j = fv) ∨
          ∃ i' ∈ l, mask i' j = false ∧ values i' j = fv) := by
      constructor
      · rintro ⟨i', hi', h⟩
        rcases List.mem_cons.mp hi' with h1 | h1
        · subst h1
          exact Or.inl h
        · exact Or.inr ⟨i', h1, h⟩
      · rintro (h | ⟨i', hi', h⟩)
        · exact ⟨i, List.mem_cons_self i l, h⟩
        · exact ⟨i', List.mem_cons_of_mem _ hi', h⟩
    have hmsk : (∃ i' ∈ i :: l, mask i' j = true) ↔
        (mask i j = true ∨ ∃ i' ∈ l, mask i' j = true) := by
      constructor
      · rintro ⟨i', hi', h⟩
        rcases List.mem_cons.mp hi' with h1 | h1
        · subst h1
          exact Or.inl h
        · exact Or.inr ⟨i', h1, h⟩
      · rintro (h | ⟨i', hi', h⟩)
        · exact ⟨i, List.mem_cons_self i l, h⟩
        · exact ⟨i', List.mem_cons_of_mem _ hi', h⟩
    rw [List.foldl_cons, anyAllStep_kleene, ih]
    simp only [hdec, hmsk]
    by_cases hm : mask i j = true
    · have hdeci : ¬(mask i j = false ∧ values i j = fv) := by
        rintro ⟨h, _⟩
        rw [hm] at h
        exact absurd h (by simp)
      rw [if_pos hm]
      by_cases hsv : s = fv
      · rw [if_neg (not_not_intro hsv), if_pos (Or.inl hsv),
          if_pos (Or.inl hsv)]
      · rw [if_pos hsv]
        by_cases hD : ∃ i' ∈ l, mask i' j = false ∧ values i' j = fv
        · rw [if_pos (Or.inr hD), if_pos (Or.inr (Or.inr hD))]
        · rw [if_neg (fun hand => hand.elim (fun h => hfv1 h) hD),
            if_pos (Or.inl rfl),
            if_neg (fun hand => hand.elim hsv (fun h2 => h2.elim hdeci hD)),
            if_pos (Or.inr (Or.inl hm))]
    · have hmf : mask i j = false := by simpa using hm
      rw [if_neg hm]
      by_cases hv : values i j = fv
      · rw [if_pos hv, if_pos (Or.inl rfl),
          if_pos (Or.inr (Or.inl ⟨hmf, hv⟩))]
      · rw [if_neg hv]
        by_cases h1 : s = fv ∨ ∃ i' ∈ l, mask i' j = false ∧ values i' j = fv
        · rw [if_pos h1, if_pos (h1.imp (fun h => h) (fun h => Or.inr h))]
        · have hro : ¬(s = fv ∨ (mask i j = false ∧ values i j = fv) ∨
              ∃ i' ∈ l, mask i' j = false ∧ values i' j = fv) := by
            rintro (h | h | h)
            · exact h1 (Or.inl h)
            · exact absurd h.2 hv
            · exact h1 (Or.inr h)
          rw [if_neg h1, if_neg hro]
          by_cases h2 : s = -1 ∨ ∃ i' ∈ l, mask i' j = true
          · have hri : s = -1 ∨ mask i j = true ∨ ∃ i' ∈ l, mask i' j = true :=
              h2.imp (fun h => h) (fun h => Or.inr h)
            rw [if_pos h2, if_pos hri]
          · have hri : ¬(s = -1 ∨ mask i j = true ∨ ∃ i' ∈ l, mask i' j = true) := by
              rintro (h | h | h)
              · exact h2 (Or.inl h)
              · exact hm h
              · exact h2 (Or.inr h)
            rw [if_neg h2, if_neg hri]

/-- One output cell of the `nullable = true`, `skipna = false` scan:
`-1` iff the group has a masked row in this column and no unmasked row
carries the decisive value. -/
theorem anyAllBody_kleene_cell (N K : ℕ) (values : ℕ → ℕ → ℤ)
    (labels : ℕ → ℤ) (mask : ℕ → ℕ → Bool) (fv : ℤ) (g : ℤ) (j : ℕ)
    (hfv : fv = 0 ∨ fv = 1) (hg : 0 ≤ g) (hj : j < K) :
    (anyAllBody N K values labels mask false true fv g j = -1 ↔
      (∃ i < N, labels i = g ∧ mask i j = true) ∧
      ¬∃ i < N, labels i = g ∧ mask i j = false ∧ values i j = fv) := by
  unfold anyAllBody cellScan
  rw [cellScan_fold K labels _ (List.range N) _ g j hg hj]
  rw [kleeneFold values mask fv j hfv]
  have hconv1 : (∃ i ∈ (List.range N).filter (fun i => labels i == g),
      mask i j = false ∧ values i j = fv) ↔
      (∃ i < N, labels i = g ∧ mask i j = false ∧ values i j = fv) := by
    constructor
    · rintro ⟨i, hi, h⟩
      rw [List.mem_filter, List.mem_range] at hi
      exact ⟨i, hi.1, by simpa using hi.2, h⟩
    · rintro ⟨i, hiN, hlab, h⟩
      exact ⟨i, List.mem_filter.mpr
        ⟨List.mem_range.mpr hiN, by simp [hlab]⟩, h⟩
  have hconv2 : (∃ i ∈ (List.range N).filter (fun i => labels i == g),
      mask i j = true) ↔ (∃ i < N, labels i = g ∧ mask i j = true) := by
    constructor
    · rintro ⟨i, hi, h⟩
      rw [List.mem_filter, List.mem_range] at hi
      exact ⟨i, hi.1, by simpa using hi.2, h⟩
    · rintro ⟨i, hiN, hlab, h⟩
      exact ⟨i, List.mem_filter.mpr
        ⟨List.mem_range.mpr hiN, by simp [hlab]⟩, h⟩
  have hne1 : fv ≠ -1 := by
    rcases hfv with h0 | h0 <;> subst h0 <;> decide
  have hne2 : (1 : ℤ) - fv ≠ fv := by
    rcases hfv with h0 | h0 <;> subst h0 <;> decide
  have hne3 : (1 : ℤ) - fv ≠ -1 := by
    rcases hfv with h0 | h0 <;> subst h0 <;> decide
  by_cases hD : ∃ i ∈ (List.range N).filter (fun i => labels i == g),
      mask i j = false ∧ values i j = fv
  · rw [if_pos (Or.inr hD)]
    constructor
    · intro h
      exact absurd h hne1
    · rintro ⟨_, hno⟩
      exact absurd (hconv1.mp hD) hno
  · have hno1 : ¬((1 : ℤ) - fv = fv ∨
        ∃ i ∈ (List.range N).filter (fun i => labels i == g),
          mask i j = false ∧ values i j = fv) := by
      rintro (h | h)
      · exact hne2 h
      · exact hD h
    rw [if_neg hno1]
    by_cases hM : ∃ i ∈ (List.range N).filter (fun i => labels i == g),
        mask i j = true
    · rw [if_pos (Or.inr hM)]
      constructor
      · intro _
        exact ⟨hconv2.mp hM, fun hx => hD (hconv1.mpr hx)⟩
      · intro _
        rfl
    · have hno2 : ¬((1 : ℤ) - fv = -1 ∨
          ∃ i ∈ (List.range N).filter (fun i => labels i == g),
            mask i j = true) := by
        rintro (h | h)
        · exact hne3 h
        · exact hM h
      rw [if_neg hno2]
      constructor
      · intro h
        exact absurd h hne3
      · rintro ⟨hx, _⟩
        exact absurd (hconv2.mpr hx) hM

/-- C5, counterexample to the original claim: with `skipna = true` the masked
cell is skipped before the Kleene branch, so the cell stays at the initial
`1 - flag_val = 0` even though the group has a masked cell in the column and
no decisive value was seen — the claimed iff fails without `skipna = false`. -/
theorem groupAnyAll_kleene_cex :
    ((∃ i < 1, (fun _ : ℕ => (0 : ℤ)) i = 0 ∧
        (fun _ _ : ℕ => true) i 0 = true) ∧
      ¬∃ i < 1, (fun _ : ℕ => (0 : ℤ)) i = 0 ∧
        (fun _ _ : ℕ => true) i 0 = false ∧
        (fun _ _ : ℕ => (0 : ℤ)) i 0 = 1) ∧
    exceptCell (groupAnyAll 1 1 (fun _ _ => 0) (fun _ => 0) (fun _ _ => true)
      "any" true true) 0 0 = some 0 := by
  refine ⟨⟨⟨0, by omega, rfl, rfl⟩, ?_⟩, by decide⟩
  rintro ⟨i, _, _, hmask, _⟩
  exact absurd hmask (by simp)

/-- C5 (amended): for `group_any_all` with `nullable = true` and
`skipna = false`, an output cell is `-1` on return iff its group contains at
least one masked cell in that column and no decisive value (`flag_val`: 1 for
`'any'`, 0 for `'all'`) occurs among the group's unmasked cells in that
column; and the claim's example (values all 0, mask `[[1],[0],[0]]`, one
group, `'any'`) yields `-1`. -/
theorem groupAnyAll_kleene :
    (∀ (N K : ℕ) (values : ℕ → ℕ → ℤ) (labels : ℕ → ℤ)
      (mask : ℕ → ℕ → Bool) (vt : String) (fv : ℤ) (g : ℤ) (j : ℕ),
      ((vt = "all" ∧ fv = 0) ∨ (vt = "any" ∧ fv = 1)) → 0 ≤ g → j < K →
      (exceptCell (groupAnyAll N K values labels mask vt false true) g j =
          some (-1) ↔
        (∃ i < N, labels i = g ∧ mask i j = true) ∧
        ¬∃ i < N, labels i = g ∧ mask i j = false ∧ values i j = fv)) ∧
    exceptCell (groupAnyAll 3 1 (fun _ _ => 0) (fun _ => 0)
      (fun i _ => decide (i = 0)) "any" false true) 0 0 = some (-1) := by
  constructor
  · intro N K values labels mask vt fv g j hvt hg hj
    rcases hvt with ⟨hvt, hfv⟩ | ⟨hvt, hfv⟩
    · subst hvt
      subst hfv
      unfold groupAnyAll
      rw [if_pos rfl]
      have hx : exceptCell
          (Except.ok (anyAllBody N K values labels mask false true 0)) g j =
          some (anyAllBody N K values labels mask false true 0 g j) := rfl
      rw [hx, Option.some_inj]
      exact anyAllBody_kleene_cell N K values labels mask 0 g j (Or.inl rfl)
        hg hj
    · subst hvt
      subst hfv
      unfold groupAnyAll
      rw [if_neg (by decide), if_pos rfl]
      have hx : exceptCell
          (Except.ok (anyAllBody N K values labels mask false true 1)) g j =
          some (anyAllBody N K values labels mask false true 1 g j) := rfl
      rw [hx, Option.some_inj]
      exact anyAllBody_kleene_cell N K values labels mask 1 g j (Or.inr rfl)
        hg hj
  · decide

theorem groupAnyAll_kleene_witness :
    exceptCell (groupAnyAll 1 1 (fun _ _ => 0) (fun _ => 0) (fun _ _ => true)
        "any" false true) 0 0 = some (-1) :=
  (groupAnyAll_kleene.1 1 1 (fun _ _ => 0) (fun _ => 0) (fun _ _ => true)
      "any" 1 0 0 (Or.inr ⟨rfl, rfl⟩) (by decide) (by decide)).mpr
    ⟨⟨0, by decide, rfl, rfl⟩, by
      rintro ⟨i, hi, hlab, hmask, hval⟩
      exact absurd hmask (by simp)⟩

/-! ## group_cumsum (floating-point track) -/

/-- State of `group_cumsum`: Kahan accumulator and compensation per
`(group, column)` plus the output rows; `none` is NaN. -/
structure CsState where
  accum : ℤ → ℕ → Option ℚ
  comp : ℤ → ℕ → Option ℚ
  out : ℕ → ℕ → Option ℚ

/-- `fadd` with a NaN left operand is NaN. -/
theorem fadd_none_left (y : Option ℚ) : fadd none y = none := by
  cases y <;> rfl

/-- The inner column loop of `group_cumsum` at row `i` with label `lab`: on a
non-NA value run the Kahan update (`y = val - comp`, `t = accum + y`,
`comp = t - accum - y`, `accum = t`) and write `out[i, j] = t`; on NaN write
`out[i, j] = NaN` and, when `skipna` is false, poison `accum[lab, j]` and
`break` out of the column loop. -/
def csCols (values : ℕ → ℕ → Option ℚ) (skipna : Bool) (i : ℕ) (lab : ℤ) :
    List ℕ → CsState → CsState
  | [], st => st
  | j :: js, st =>
    match values i j with
    | some v =>
      csCols values skipna i lab js
        { accum := updCell st.accum lab j
            (fadd (st.accum lab j) (fsub (some v) (st.comp lab j)))
          comp := updCell st.comp lab j
            (fsub (fsub (fadd (st.accum lab j) (fsub (some v) (st.comp lab j)))
              (st.accum lab j)) (fsub (some v) (st.comp lab j)))
          out := upd2 st.out i j
            (fadd (st.accum lab j) (fsub (some v) (st.comp lab j))) }
    | none =>
      if skipna then
        csCols values skipna i lab js { st with out := upd2 st.out i j none }
      else
        { accum := updCell st.accum lab j none
          comp := st.comp
          out := upd2 st.out i j none }

/-- One outer-loop step of `group_cumsum`: skip negative labels, else run the
column loop over all `K` columns. -/
def csRow (K : ℕ) (values : ℕ → ℕ → Option ℚ) (skipna : Bool)
    (labels : ℕ → ℤ) (st : CsState) (i : ℕ) : CsState :=
  if labels i < 0 then st
  else csCols values skipna i (labels i) (List.range K) st

/-- Shallow embedding of the floating-point track of `group_cumsum`
(`accum` and `compensation` start at zero, `out` is the caller's buffer).
The integer/datetimelike track takes the plain-sum `else` branch of the
source and is not modelled here. -/
def groupCumsum (N K : ℕ) (values : ℕ → ℕ → Option ℚ) (labels : ℕ → ℤ)
    (skipna : Bool) (out0 : ℕ → ℕ → Option ℚ) : CsState :=
  (List.range N).foldl (csRow K values skipna labels)
    { accum := fun _ _ => some 0, comp := fun _ _ => some 0, out := out0 }

/-- Processing row `i` never writes `out` at another row. -/
theorem csCols_out_frame (values : ℕ → ℕ → Option ℚ) (skipna : Bool)
    (i : ℕ) (lab : ℤ) :
    ∀ (js : List ℕ) (st : CsState) (x y : ℕ), x ≠ i →
      (csCols values skipna i lab js st).out x y = st.out x y := by
  intro js
  induction js with
  | nil =>
    intro st x y _
    rfl
  | cons j js ih =>
    intro st x y hne
    cases h : values i j with
    | some v =>
      simp only [csCols, h]
      rw [ih _ x y hne]
      exact upd2_other _ _ _ _ _ _ (fun hand => hne hand.1)
    | none =>
      simp only [csCols, h]
      by_cases hsk : skipna
      · rw [if_pos hsk, ih _ x y hne]
        exact upd2_other _ _ _ _ _ _ (fun hand => hne hand.1)
      · rw [if_neg hsk]
        exact upd2_other _ _ _ _ _ _ (fun hand => hne hand.1)

/-- A fold over rows other than `x` never writes `out` at row `x`. -/
theorem csFold_out_frame (K : ℕ) (values : ℕ → ℕ → Option ℚ) (skipna : Bool)
    (labels : ℕ → ℤ) (x y : ℕ) :
    ∀ (l : List ℕ) (st : CsState), (∀ i' ∈ l, i' ≠ x) →
      (l.foldl (csRow K values skipna labels) st).out x y = st.out x y := by
  intro l
  induction l with
  | nil =>
    intro st _
    rfl
  | cons a l ih =>
    intro st h
    rw [List.foldl_cons, ih _ (fun i' hi' => h i' (List.mem_cons_of_mem a hi'))]
    unfold csRow
    by_cases hl : labels a < 0
    · rw [if_pos hl]
    · rw [if_neg hl]
      exact csCols_out_frame values skipna a (labels a) (List.range K) st x y
        (Ne.symm (h a (List.mem_cons_self a l)))

/-- The poisoned accumulator is absorbing across a row's column loop: once
`accum[g, j]` is NaN every later Kahan write there is `NaN + y = NaN`. -/
theorem csCols_accum_none (values : ℕ → ℕ → Option ℚ) (skipna : Bool)
    (i : ℕ) (lab g : ℤ) (j : ℕ) :
    ∀ (js : List ℕ) (st : CsState), st.accum g j = none →
      (csCols values skipna i lab js st).accum g j = none := by
  intro js
  induction js with
  | nil =>
    intro st h
    exact h
  | cons a js ih =>
    intro st h
    cases hva : values i a with
    | some v =>
      simp only [csCols, hva]
      refine ih _ ?_
      dsimp only
      by_cases hgj : g = lab ∧ j = a
      · rw [hgj.1, hgj.2, updCell_same]
        rw [hgj.1, hgj.2] at h
        rw [h, fadd_none_left]
      · rw [updCell_other _ _ _ _ _ _ hgj]
        exact h
    | none =>
      simp only [csCols, hva]
      by_cases hsk : skipna
      · rw [if_pos hsk]
        exact ih _ h
      · rw [if_neg hsk]
        dsimp only
        by_cases hgj : g = lab ∧ j = a
        · rw [hgj.1, hgj.2, updCell_same]
        · rw [updCell_other _ _ _ _ _ _ hgj]
          exact h

/-- The poisoned accumulator is absorbing across the outer row loop. -/
theorem csFold_accum_none (K : ℕ) (values : ℕ → ℕ → Option ℚ)
    (skipna : Bool) (labels : ℕ → ℤ) (g : ℤ) (j : ℕ) :
    ∀ (l : List ℕ) (st : CsState), st.accum g j = none →
      (l.foldl (csRow K values skipna labels) st).accum g j = none := by
  intro l
  induction l with
  | nil =>
    intro st h
    exact h
  | cons a l ih =>
    intro st h
    rw [List.foldl_cons]
    refine ih _ ?_
    unfold csRow
    by_cases hl : labels a < 0
    · rw [if_pos hl]
      exact h
    · rw [if_neg hl]
      exact csCols_accum_none values skipna a (labels a) g j (List.range K)
        st h

/-- A row's column loop over columns other than `y` never writes `out[i, y]`. -/
theorem csCols_out_frame_col (values : ℕ → ℕ → Option ℚ) (skipna : Bool)
    (i : ℕ) (lab : ℤ) (y : ℕ) :
    ∀ (js : List ℕ) (st : CsState), (∀ a ∈ js, a ≠ y) →
      (csCols values skipna i lab js st).out i y = st.out i y := by
  intro js
  induction js with
  | nil =>
    intro st _
    rfl
  | cons a js ih =>
    intro st h
    have hay : a ≠ y := h a (List.mem_cons_self a js)
    have htail : ∀ b ∈ js, b ≠ y :=
      fun b hb => h b (List.mem_cons_of_mem a hb)
    cases hva : values i a with
    | some v =>
      simp only [csCols, hva]
      rw [ih _ htail]
      exact upd2_other _ _ _ _ _ _ (fun hand => hay hand.2.symm)
    | none =>
      simp only [csCols, hva]
      by_cases hsk : skipna
      · rw [if_pos hsk, ih _ htail]
        exact upd2_other _ _ _ _ _ _ (fun hand => hay hand.2.symm)
      · rw [if_neg hsk]
        exact upd2_other _ _ _ _ _ _ (fun hand => hay hand.2.symm)

/-- When row `i` reaches column `j` (all columns of `l₁` hold non-NA values)
and `values[i, j]` is NA, the `skipna = false` column loop writes
`out[i, j] = NaN`, poisons `accum[g, j]`, and `break`s: every column not yet
processed and distinct from `j` keeps its previous `out` value. -/
theorem csCols_poison (values : ℕ → ℕ → Option ℚ) (i : ℕ) (g : ℤ) (j : ℕ)
    (hj : values i j = none) :
    ∀ (l₁ l₂ : List ℕ) (st : CsState), (∀ j' ∈ l₁, (values i j').isSome) →
      (csCols values false i g (l₁ ++ j :: l₂) st).accum g j = none ∧
      (csCols values false i g (l₁ ++ j :: l₂) st).out i j = none ∧
      (∀ j'', j'' ∉ l₁ → j'' ≠ j →
        (csCols values false i g (l₁ ++ j :: l₂) st).out i j'' =
          st.out i j'') := by
  intro l₁
  induction l₁ with
  | nil =>
    intro l₂ st _
    simp only [List.nil_append, csCols, hj, if_neg Bool.false_ne_true]
    refine ⟨updCell_same _ _ _ _, upd2_same _ _ _ _, ?_⟩
    intro j'' _ hne
    exact upd2_other _ _ _ _ _ _ (fun hand => hne hand.2)
  | cons a l₁ ih =>
    intro l₂ st h
    have ha : (values i a).isSome := h a (List.mem_cons_self a l₁)
    cases hva : values i a with
    | none =>
      rw [hva] at ha
      exact absurd ha (by simp)
    | some v =>
      have hcons : (a :: l₁) ++ j :: l₂ = a :: (l₁ ++ j :: l₂) := rfl
      rw [hcons]
      simp only [csCols, hva]
      obtain ⟨h1, h2, h3⟩ := ih l₂
        { accum := updCell st.accum g a
            (fadd (st.accum g a) (fsub (some v) (st.comp g a)))
          comp := updCell st.comp g a
            (fsub (fsub (fadd (st.accum g a) (fsub (some v) (st.comp g a)))
              (st.accum g a)) (fsub (some v) (st.comp g a)))
          out := upd2 st.out i a
            (fadd (st.accum g a) (fsub (some v) (st.comp g a))) }
        (fun j' hj' => h j' (List.mem_cons_of_mem a hj'))
      refine ⟨h1, h2, ?_⟩
      intro j'' hnotin hne
      have hna : j'' ≠ a := fun he => hnotin (he ▸ List.mem_cons_self a l₁)
      rw [h3 j'' (fun hin => hnotin (List.mem_cons_of_mem a hin)) hne]
      exact upd2_other _ _ _ _ _ _ (fun hand => hna hand.2)

/-- NaN propagation within a later row: if `accum[g, j]` is already poisoned
and row `i` reaches column `j`, the row writes `out[i, j] = NaN` — either its
own value is NA (direct write) or the Kahan sum `NaN + y` is NaN. -/
theorem csCols_propagate (values : ℕ → ℕ → Option ℚ) (i : ℕ) (g : ℤ)
    (j : ℕ) :
    ∀ (l₁ l₂ : List ℕ) (st : CsState), st.accum g j = none →
      (∀ j' ∈ l₁, (values i j').isSome ∧ j' ≠ j) →
      (∀ j'' ∈ l₂, j'' ≠ j) →
      (csCols values false i g (l₁ ++ j :: l₂) st).out i j = none := by
  intro l₁
  induction l₁ with
  | nil =>
    intro l₂ st hacc _ hl₂
    rw [List.nil_append]
    cases hvj : values i j with
    | none =>
      simp only [csCols, hvj, if_neg Bool.false_ne_true]
      exact upd2_same _ _ _ _
    | some v =>
      simp only [csCols, hvj]
      rw [csCols_out_frame_col values false i g j l₂ _ hl₂]
      dsimp only
      rw [upd2_same, hacc, fadd_none_left]
  | cons a l₁ ih =>
    intro l₂ st hacc h hl₂
    have ha := h a (List.mem_cons_self a l₁)
    cases hva : values i a with
    | none =>
      rw [hva] at ha
      exact absurd ha.1 (by simp)
    | some v =>
      have hcons : (a :: l₁) ++ j :: l₂ = a :: (l₁ ++ j :: l₂) := rfl
      rw [hcons]
      simp only [csCols, hva]
      refine ih l₂ _ ?_ (fun j' hj' => h j' (List.mem_cons_of_mem a hj'))
        hl₂
      dsimp only
      rw [updCell_other _ _ _ _ _ _ (fun hand => ha.2 hand.2.symm), hacc]

/-- A row of the final `out` is determined by the column loop of that row run
on the state accumulated over the earlier rows: later rows never write it. -/
theorem groupCumsum_row (N K : ℕ) (values : ℕ → ℕ → Option ℚ)
    (labels : ℕ → ℤ) (skipna : Bool) (out0 : ℕ → ℕ → Option ℚ) (i y : ℕ)
    (g : ℤ) (hlab : labels i = g) (hg : 0 ≤ g) (hiN : i < N) :
    (groupCumsum N K values labels skipna out0).out i y =
      (csCols values skipna i g (List.range K)
        ((List.range i).foldl (csRow K values skipna labels)
          { accum := fun _ _ => some 0, comp := fun _ _ => some 0,
            out := out0 })).out i y := by
  unfold groupCumsum
  have h2 : List.range N = List.range ((i+1) + (N - (i+1))) := by
    congr 1
    omega
  rw [h2, List.range_add, List.foldl_append]
  rw [csFold_out_frame K values skipna labels i y _ _
    (fun i' hi' => by
      obtain ⟨x, _, rfl⟩ := List.mem_map.mp hi'
      omega)]
  rw [List.range_succ, List.foldl_append, List.foldl_cons, List.foldl_nil]
  unfold csRow
  rw [hlab, if_neg (by omega)]

/-- C6 (amended): for the floating-point track of `group_cumsum` with
`skipna = false`, consider a row `i` of group `g` that reaches column `j`
(all its earlier columns hold non-NA values). If `values[i, j]` is NA the
kernel writes `out[i, j] = NaN` and `break`s, leaving every column to the
right of `j` in row `i` unwritten; and if some earlier row of the group also
reached column `j` with an NA value there (poisoning `accum[g, j]`), then
row `i` receives `out[i, j] = NaN` as well. -/
theorem groupCumsum_nan_poison (N K : ℕ) (values : ℕ → ℕ → Option ℚ)
    (labels : ℕ → ℤ) (out0 : ℕ → ℕ → Option ℚ) (i j : ℕ) (g : ℤ)
    (hlab : labels i = g) (hg : 0 ≤ g) (hiN : i < N) (hjK : j < K)
    (hreach : ∀ j' < j, (values i j').isSome) :
    (values i j = none →
      (groupCumsum N K values labels false out0).out i j = none ∧
      ∀ j'', j < j'' → j'' < K →
        (groupCumsum N K values labels false out0).out i j'' = out0 i j'') ∧
    ((∃ i' < i, labels i' = g ∧ (∀ j' < j, (values i' j').isSome) ∧
        values i' j = none) →
      (groupCumsum N K values labels false out0).out i j = none) := by
  have hKsplit : List.range K = List.range j ++ j ::
      (List.range (K - (j+1))).map (fun x => (j+1) + x) := by
    have h1 : List.range K = List.range ((j+1) + (K - (j+1))) := by
      congr 1
      omega
    rw [h1, List.range_add, List.range_succ, List.append_assoc]
    rfl
  constructor
  · intro hna
    constructor
    · rw [groupCumsum_row N K values labels false out0 i j g hlab hg hiN,
        hKsplit]
      exact (csCols_poison values i g j hna (List.range j) _ _
        (fun j' hj' => hreach j' (List.mem_range.mp hj'))).2.1
    · intro j'' hj1 hj2
      rw [groupCumsum_row N K values labels false out0 i j'' g hlab hg hiN,
        hKsplit]
      rw [(csCols_poison values i g j hna (List.range j) _ _
        (fun j' hj' => hreach j' (List.mem_range.mp hj'))).2.2 j''
        (fun hin => absurd (List.mem_range.mp hin) (by omega)) (by omega)]
      rw [csFold_out_frame K values false labels i j'' (List.range i) _
        (fun i' hi' => Nat.ne_of_lt (List.mem_range.mp hi'))]
  · rintro ⟨i', hi'i, hlab', hreach', hna'⟩
    rw [groupCumsum_row N K values labels false out0 i j g hlab hg hiN,
      hKsplit]
    refine csCols_propagate values i g j (List.range j) _ _ ?_ ?_ ?_
    · have hri : List.range i = List.range ((i'+1) + (i - (i'+1))) := by
        congr 1
        omega
      rw [hri, List.range_add, List.foldl_append]
      refine csFold_accum_none K values false labels g j _ _ ?_
      rw [List.range_succ, List.foldl_append, List.foldl_cons, List.foldl_nil]
      unfold csRow
      rw [hlab', if_neg (by omega)]
      rw [hKsplit]
      exact (csCols_poison values i' g j hna' (List.range j) _ _
        (fun j' hj' => hreach' j' (List.mem_range.mp hj'))).1
    · intro j' hj'
      exact ⟨hreach j' (List.mem_range.mp hj'),
        Nat.ne_of_lt (List.mem_range.mp hj')⟩
    · intro j'' hj''
      obtain ⟨x, _, rfl⟩ := List.mem_map.mp hj''
      omega

/-- C6, counterexample to the original claim: with two columns, row 0 is NA
in column 1 (poisoning it), but row 1 is NA in column 0 and so `break`s
before reaching column 1 — `out[1, 1]` keeps its initial buffer value
instead of the claimed NaN. -/
theorem groupCumsum_nan_poison_cex :
    (fun i j => if i = 0 then (if j = 0 then some (1 : ℚ) else none)
        else (if j = 0 then none else some 1)) 0 1 = none ∧
    (groupCumsum 2 2
        (fun i j => if i = 0 then (if j = 0 then some (1 : ℚ) else none)
          else (if j = 0 then none else some 1))
        (fun _ => 0) false (fun _ _ => some 5)).out 1 1 = some 5 := by
  constructor
  · rfl
  · decide

theorem groupCumsum_nan_poison_witness :
    (groupCumsum 2 1 (fun i _ => if i = 0 then none else some 1)
        (fun _ => 0) false (fun _ _ => some 7)).out 1 0 = none :=
  (groupCumsum_nan_poison 2 1 (fun i _ => if i = 0 then none else some 1)
      (fun _ => 0) (fun _ _ => some 7) 1 0 0 rfl (by decide) (by decide)
      (by decide) (fun j' hj' => absurd hj' (by omega))).2
    ⟨0, by decide, rfl, fun j' hj' => absurd hj' (by omega), rfl⟩

/-! ## group_cummin_max (masked track) -/

/-- State of the masked (`uses_mask = true`, hence `na_possible = true`)
track of `group_cummin_max`: running extremum per `(group, column)`
(`none` is the untouched ±∞/extreme sentinel), `seen_na`, the output, and
the caller's mask (which this kernel mutates in place). -/
structure CmmState where
  accum : ℤ → ℕ → Option ℚ
  seenNa : ℤ → ℕ → Bool
  out : ℕ → ℕ → ℚ
  mask : ℕ → ℕ → Bool

/-- The running extremum write: against the sentinel any value wins; else
keep `accum` unless the new value beats it (`>` for cummax, `<` for
cummin). The result is both the new accumulator and `mval`, the value
written to `out`. -/
def cmAcc (cm : Bool) : Option ℚ → ℚ → ℚ
  | none, v => v
  | some m, v => if cm then (if m < v then v else m)
      else (if v < m then v else m)

/-- One `(row, column)` visit of `group_cummin_max`'s masked track: if
`skipna` is false and an NA was seen in this group and column, set
`mask[i, j] = 1` and `out[i, j] = 0`; else if `mask[i, j]` marks an NA,
record `seen_na` and emit the value; else run the extremum update. -/
def cmmCell (cm : Bool) (values : ℕ → ℕ → ℚ) (skipna : Bool) (i : ℕ)
    (lab : ℤ) (st : CmmState) (j : ℕ) : CmmState :=
  if skipna = false ∧ st.seenNa lab j = true then
    { st with mask := upd2 st.mask i j true, out := upd2 st.out i j 0 }
  else if st.mask i j = true then
    { st with seenNa := updCell st.seenNa lab j true,
              out := upd2 st.out i j (values i j) }
  else
    { st with accum := updCell st.accum lab j
                (some (cmAcc cm (st.accum lab j) (values i j))),
              out := upd2 st.out i j (cmAcc cm (st.accum lab j) (values i j)) }

/-- Shallow embedding of the masked track of `group_cummin_max`
(`cm = true` for `group_cummax`, `false` for `group_cummin`). -/
def groupCumMinMax (N K : ℕ) (cm : Bool) (values : ℕ → ℕ → ℚ)
    (labels : ℕ → ℤ) (skipna : Bool) (out0 : ℕ → ℕ → ℚ)
    (mask0 : ℕ → ℕ → Bool) : CmmState :=
  (List.range N).foldl
    (fun st i => if labels i < 0 then st
      else (List.range K).foldl (cmmCell cm values skipna i (labels i)) st)
    { accum := fun _ _ => none, seenNa := fun _ _ => false, out := out0,
      mask := mask0 }

/-- A visit at column `j` leaves `mask` at other columns unchanged. -/
theorem cmmCell_mask_frame (cm : Bool) (values : ℕ → ℕ → ℚ) (skipna : Bool)
    (i : ℕ) (lab : ℤ) (st : CmmState) (j x y : ℕ) (hne : y ≠ j) :
    (cmmCell cm values skipna i lab st j).mask x y = st.mask x y := by
  unfold cmmCell
  split_ifs
  · dsimp only
    exact upd2_other _ _ _ _ _ _ (fun hand => hne hand.2)
  · rfl
  · rfl

/-- A visit at column `j` leaves `seen_na` at other columns unchanged. -/
theorem cmmCell_seenNa_frame (cm : Bool) (values : ℕ → ℕ → ℚ)
    (skipna : Bool) (i : ℕ) (lab g : ℤ) (st : CmmState) (j y : ℕ)
    (hne : y ≠ j) :
    (cmmCell cm values skipna i lab st j).seenNa g y = st.seenNa g y := by
  unfold cmmCell
  split_ifs
  · rfl
  · dsimp only
    exact updCell_other _ _ _ _ _ _ (fun hand => hne hand.2)
  · rfl

/-- `seen_na` after a visit at column `j`: it is set there iff it already
was, or this row's group is the visited one and `mask[i, j]` marks an NA. -/
theorem cmmCell_seenNa_self (cm : Bool) (values : ℕ → ℕ → ℚ)
    (skipna : Bool) (i : ℕ) (lab g : ℤ) (st : CmmState) (j : ℕ) :
    ((cmmCell cm values skipna i lab st j).seenNa g j = true ↔
      st.seenNa g j = true ∨ (g = lab ∧ st.mask i j = true)) := by
  unfold cmmCell
  split_ifs with h1 h2 <;> dsimp only
  · constructor
    · intro h
      exact Or.inl h
    · rintro (h | ⟨hg, _⟩)
      · exact h
      · rw [hg]
        exact h1.2
  · by_cases hg : g = lab
    · rw [hg, updCell_same]
      constructor
      · intro _
        exact Or.inr ⟨rfl, h2⟩
      · intro _
        rfl
    · rw [updCell_other _ _ _ _ _ _ (fun hand => hg hand.1)]
      constructor
      · intro h
        exact Or.inl h
      · rintro (h | ⟨hg', _⟩)
        · exact h
        · exact absurd hg' hg
  · constructor
    · intro h
      exact Or.inl h
    · rintro (h | ⟨_, hm⟩)
      · exact h
      · exact absurd hm h2

/-- `mask` after a visit at column `j`: it is set there iff it already was,
or this is the visited row at an NA-propagation point (`skipna = false` and
`seen_na` of the row's group already set). -/
theorem cmmCell_mask_self (cm : Bool) (values : ℕ → ℕ → ℚ) (skipna : Bool)
    (i : ℕ) (lab : ℤ) (st : CmmState) (j x : ℕ) :
    ((cmmCell cm values skipna i lab st j).mask x j = true ↔
      st.mask x j = true ∨
      (x = i ∧ skipna = false ∧ st.seenNa lab j = true)) := by
  unfold cmmCell
  split_ifs with h1 h2 <;> dsimp only
  · by_cases hx : x = i
    · rw [hx, upd2_same]
      constructor
      · intro _
        exact Or.inr ⟨rfl, h1.1, h1.2⟩
      · intro _
        rfl
    · rw [upd2_other _ _ _ _ _ _ (fun hand => hx hand.1)]
      constructor
      · intro h
        exact Or.inl h
      · rintro (h | ⟨hx', _⟩)
        · exact h
        · exact absurd hx' hx
  · constructor
    · intro h
      exact Or.inl h
    · rintro (h | ⟨_, hsk, hsn⟩)
      · exact h
      · exact absurd ⟨hsk, hsn⟩ h1
  · constructor
    · intro h
      exact Or.inl h
    · rintro (h | ⟨_, hsk, hsn⟩)
      · exact h
      · exact absurd ⟨hsk, hsn⟩ h1

/-- `seen_na` after one row's column loop: set iff it was already set, or
the row belongs to the group and its mask marks an NA at that column. -/
theorem cmmRow_seenNa (cm : Bool) (values : ℕ → ℕ → ℚ) (skipna : Bool)
    (i : ℕ) (lab : ℤ) :
    ∀ (cols : List ℕ), cols.Nodup → ∀ (st : CmmState) (g : ℤ) (y : ℕ),
      ((cols.foldl (cmmCell cm values skipna i lab) st).seenNa g y = true ↔
        st.seenNa g y = true ∨
        (g = lab ∧ y ∈ cols ∧ st.mask i y = true)) := by
  intro cols
  induction cols with
  | nil =>
    intro _ st g y
    simp
  | cons c cols ih =>
    intro hnd st g y
    have hnd' := List.nodup_cons.mp hnd
    rw [List.foldl_cons, ih hnd'.2]
    by_cases hyc : y = c
    · subst hyc
      have hnot : y ∉ cols := hnd'.1
      constructor
      · rintro (h | ⟨_, hmem, _⟩)
        · rcases (cmmCell_seenNa_self cm values skipna i lab g st y).mp h
            with h' | ⟨hg, hm⟩
          · exact Or.inl h'
          · exact Or.inr ⟨hg, List.mem_cons_self y cols, hm⟩
        · exact absurd hmem hnot
      · rintro (h | ⟨hg, _, hm⟩)
        · exact Or.inl
            ((cmmCell_seenNa_self cm values skipna i lab g st y).mpr
              (Or.inl h))
        · exact Or.inl
            ((cmmCell_seenNa_self cm values skipna i lab g st y).mpr
              (Or.inr ⟨hg, hm⟩))
    · rw [cmmCell_seenNa_frame cm values skipna i lab g st c y hyc,
        cmmCell_mask_frame cm values skipna i lab st c i y hyc]
      constructor
      · rintro (h | ⟨hg, hmem, hm⟩)
        · exact Or.inl h
        · exact Or.inr ⟨hg, List.mem_cons_of_mem c hmem, hm⟩
      · rintro (h | ⟨hg, hmem, hm⟩)
        · exact Or.inl h
        · exact Or.inr ⟨hg, (List.mem_cons.mp hmem).resolve_left hyc, hm⟩

/-- `mask` after one row's column loop: set iff it was already set, or the
cell is this row's at a visited column and `skipna = false` with the
group's `seen_na` already set at that column (the NA-propagation write). -/
theorem cmmRow_mask (cm : Bool) (values : ℕ → ℕ → ℚ) (skipna : Bool)
    (i : ℕ) (lab : ℤ) :
    ∀ (cols : List ℕ), cols.Nodup → ∀ (st : CmmState) (x y : ℕ),
      ((cols.foldl (cmmCell cm values skipna i lab) st).mask x y = true ↔
        st.mask x y = true ∨
        (x = i ∧ y ∈ cols ∧ skipna = false ∧ st.seenNa lab y = true)) := by
  intro cols
  induction cols with
  | nil =>
    intro _ st x y
    simp
  | cons c cols ih =>
    intro hnd st x y
    have hnd' := List.nodup_cons.mp hnd
    rw [List.foldl_cons, ih hnd'.2]
    by_cases hyc : y = c
    · subst hyc
      have hnot : y ∉ cols := hnd'.1
      constructor
      · rintro (h | ⟨_, hmem, _⟩)
        · rcases (cmmCell_mask_self cm values skipna i lab st y x).mp h
            with h' | ⟨hx, hsk, hsn⟩
          · exact Or.inl h'
          · exact Or.inr ⟨hx, List.mem_cons_self y cols, hsk, hsn⟩
        · exact absurd hmem hnot
      · rintro (h | ⟨hx, _, hsk, hsn⟩)
        · exact Or.inl
            ((cmmCell_mask_self cm values skipna i lab st y x).mpr
              (Or.inl h))
        · exact Or.inl
            ((cmmCell_mask_self cm values skipna i lab st y x).mpr
              (Or.inr ⟨hx, hsk, hsn⟩))
    · rw [cmmCell_mask_frame cm values skipna i lab st c x y hyc,
        cmmCell_seenNa_frame cm values skipna i lab lab st c y hyc]
      constructor
      · rintro (h | ⟨hx, hmem, hsk, hsn⟩)
        · exact Or.inl h
        · exact Or.inr ⟨hx, List.mem_cons_of_mem c hmem, hsk, hsn⟩
      · rintro (h | ⟨hx, hmem, hsk, hsn⟩)
        · exact Or.inl h
        · exact Or.inr ⟨hx, (List.mem_cons.mp hmem).resolve_left hyc, hsk,
            hsn⟩

/-- Invariant of the outer row loop of `group_cummin_max`'s masked track
after `n` rows: `seen_na[g, y]` records whether an earlier row of group `g`
was masked at column `y`, and `mask[x, y]` is set iff it was set on entry or
`(x, y)` is an NA-propagation point among the first `n` rows. -/
theorem cmmFold_inv (K : ℕ) (cm : Bool) (values : ℕ → ℕ → ℚ)
    (labels : ℕ → ℤ) (skipna : Bool) (out0 : ℕ → ℕ → ℚ)
    (mask0 : ℕ → ℕ → Bool) :
    ∀ (n : ℕ),
      (∀ (g : ℤ), ∀ y < K,
        (((List.range n).foldl
          (fun st i => if labels i < 0 then st
            else (List.range K).foldl (cmmCell cm values skipna i (labels i))
              st)
          { accum := fun _ _ => none, seenNa := fun _ _ => false,
            out := out0, mask := mask0 }).seenNa g y = true ↔
          ∃ i' < n, 0 ≤ labels i' ∧ labels i' = g ∧ mask0 i' y = true)) ∧
      (∀ (x y : ℕ),
        (((List.range n).foldl
          (fun st i => if labels i < 0 then st
            else (List.range K).foldl (cmmCell cm values skipna i (labels i))
              st)
          { accum := fun _ _ => none, seenNa := fun _ _ => false,
            out := out0, mask := mask0 }).mask x y = true ↔
          mask0 x y = true ∨
          (x < n ∧ y < K ∧ 0 ≤ labels x ∧ skipna = false ∧
            ∃ i' < x, labels i' = labels x ∧ mask0 i' y = true))) := by
  intro n
  induction n with
  | zero =>
    constructor
    · intro g y _
      simp
    · intro x y
      simp
  | succ n ih =>
    obtain ⟨ihS, ihM⟩ := ih
    constructor
    · intro g y hy
      rw [List.range_succ, List.foldl_append, List.foldl_cons,
        List.foldl_nil]
      by_cases hln : labels n < 0
      · rw [if_pos hln, ihS g y hy]
        constructor
        · rintro ⟨i', hi', h1, h2, h3⟩
          exact ⟨i', by omega, h1, h2, h3⟩
        · rintro ⟨i', hi', h1, h2, h3⟩
          by_cases hin : i' < n
          · exact ⟨i', hin, h1, h2, h3⟩
          · have hieq : i' = n := by omega
            subst hieq
            exact absurd h1 (by omega)
      · rw [if_neg hln,
          cmmRow_seenNa cm values skipna n (labels n) (List.range K)
            (List.nodup_range K) _ g y,
          ihS g y hy, ihM n y]
        constructor
        · rintro (⟨i', hi', h1, h2, h3⟩ | ⟨hg, _, hm⟩)
          · exact ⟨i', by omega, h1, h2, h3⟩
          · rcases hm with hm | hm
            · exact ⟨n, by omega, by omega, hg.symm, hm⟩
            · exact absurd hm.1 (by omega)
        · rintro ⟨i', hi', h1, h2, h3⟩
          by_cases hin : i' < n
          · exact Or.inl ⟨i', hin, h1, h2, h3⟩
          · have hieq : i' = n := by omega
            subst hieq
            exact Or.inr ⟨h2.symm, List.mem_range.mpr hy, Or.inl h3⟩
    · intro x y
      rw [List.range_succ, List.foldl_append, List.foldl_cons,
        List.foldl_nil]
      by_cases hln : labels n < 0
      · rw [if_pos hln, ihM x y]
        constructor
        · rintro (h | ⟨h1, h2, h3, h4, h5⟩)
          · exact Or.inl h
          · exact Or.inr ⟨by omega, h2, h3, h4, h5⟩
        · rintro (h | ⟨h1, h2, h3, h4, h5⟩)
          · exact Or.inl h
          · by_cases hxn : x < n
            · exact Or.inr ⟨hxn, h2, h3, h4, h5⟩
            · have hxe : x = n := by omega
              subst hxe
              exact absurd h3 (by omega)
      · rw [if_neg hln,
          cmmRow_mask cm values skipna n (labels n) (List.range K)
            (List.nodup_range K) _ x y,
          ihM x y]
        by_cases hyK : y < K
        · rw [ihS (labels n) y hyK]
          constructor
          · rintro ((h | ⟨h1, h2, h3, h4, h5⟩) |
              ⟨hx, _, hsk, i', hi', hp, hl, hm⟩)
            · exact Or.inl h
            · exact Or.inr ⟨by omega, h2, h3, h4, h5⟩
            · subst hx
              exact Or.inr ⟨by omega, hyK, by omega, hsk, i', hi', hl, hm⟩
          · rintro (h | ⟨h1, h2, h3, h4, i', hi', hl, hm⟩)
            · exact Or.inl (Or.inl h)
            · by_cases hxn : x < n
              · exact Or.inl (Or.inr ⟨hxn, h2, h3, h4, i', hi', hl, hm⟩)
              · have hxe : x = n := by omega
                subst hxe
                exact Or.inr ⟨rfl, List.mem_range.mpr hyK, h4, i', hi',
                  (by omega : (0 : ℤ) ≤ labels i'), hl, hm⟩
        · constructor
          · rintro ((h | ⟨_, h2, _⟩) | ⟨_, hmem, _⟩)
            · exact Or.inl h
            · exact absurd h2 hyK
            · exact absurd (List.mem_range.mp hmem) hyK
          · rintro (h | ⟨_, h2, _⟩)
            · exact Or.inl (Or.inl h)
            · exact absurd h2 hyK

/-- C10: the masked track of `group_cummin`/`group_cummax` mutates the
caller's `mask` exactly at the NA-propagation points — cells `(x, y)` of a
processed row whose group has already seen an NA in column `y`, with
`skipna = false` — where it writes `1`; everywhere else (including whenever
`skipna = true`) `mask` is returned unchanged. In this embedding every other
kernel takes `values`, `labels` and `mask` as read-only inputs and returns
fresh `out`/`counts`/`result_mask` buffers, so this is the single mutation
of an input the claim allows. -/
theorem cumminMax_mask_mutation (N K : ℕ) (cm : Bool)
    (values : ℕ → ℕ → ℚ) (labels : ℕ → ℤ) (skipna : Bool)
    (out0 : ℕ → ℕ → ℚ) (mask0 : ℕ → ℕ → Bool) :
    (∀ (x y : ℕ),
      ((groupCumMinMax N K cm values labels skipna out0 mask0).mask x y =
          true ↔
        mask0 x y = true ∨
        (x < N ∧ y < K ∧ 0 ≤ labels x ∧ skipna = false ∧
          ∃ i' < x, labels i' = labels x ∧ mask0 i' y = true))) ∧
    (skipna = true → ∀ (x y : ℕ),
      (groupCumMinMax N K cm values labels skipna out0 mask0).mask x y =
        mask0 x y) := by
  have hM := (cmmFold_inv K cm values labels skipna out0 mask0 N).2
  constructor
  · intro x y
    unfold groupCumMinMax
    exact hM x y
  · intro hsk x y
    unfold groupCumMinMax
    refine Bool.eq_iff_iff.mpr ?_
    constructor
    · intro hf
      rcases (hM x y).mp hf with h | h
      · exact h
      · rw [hsk] at h
        exact absurd h.2.2.2.1 (by simp)
    · intro hm0
      exact (hM x y).mpr (Or.inl hm0)

theorem cumminMax_mask_mutation_witness :
    (groupCumMinMax 2 1 true (fun _ _ => 0) (fun _ => 0) false
        (fun _ _ => 0) (fun i _ => decide (i = 0))).mask 1 0 = true :=
  ((cumminMax_mask_mutation 2 1 true (fun _ _ => 0) (fun _ => 0) false
      (fun _ _ => 0) (fun i _ => decide (i = 0))).1 1 0).mpr
    (Or.inr ⟨by decide, by decide, by decide, rfl, 0, by decide, rfl, rfl⟩)

/-! ## group_quantile -/

/-- The five interpolation modes accepted by `group_quantile`. -/
inductive Interpolation
  | linear
  | lower
  | higher
  | nearest
  | midpoint
deriving DecidableEq

/-- C-style cast-to-integer truncation (toward zero) of a rational. -/
def truncQ (x : ℚ) : ℤ := if 0 ≤ x then ⌊x⌋ else -⌊-x⌋

/-- `q_idx`, the real sorted offset `q * (non_na_sz - 1)`. -/
def qIdxVal (q : ℚ) (m : ℤ) : ℚ := q * ((m : ℚ) - 1)

/-- `frac = q_idx % 1` of the source (`fmod` by one, for the truncation
toward zero of the C cast). -/
def qFrac (q : ℚ) (m : ℤ) : ℚ := qIdxVal q m - (truncQ (qIdxVal q m) : ℚ)

/-- `idx = grp_start + <int64_t>(q_val * (non_na_sz - 1))`. -/
def qPos (gstart : ℤ) (q : ℚ) (m : ℤ) : ℤ := gstart + truncQ (qIdxVal q m)

/-- One output scalar of `group_quantile`: read `val` at sorted position
`idx` through `sort_indexer`; emit it when the quantile falls evenly on an
index or the mode is `lower`, else combine with the next sorted value per
the interpolation mode. -/
def qCell (values : ℕ → ℚ) (sortIndexer : ℕ → ℕ) (interp : Interpolation)
    (gstart : ℤ) (m : ℤ) (q : ℚ) : ℚ :=
  if qFrac q m = 0 ∨ interp = Interpolation.lower then
    values (sortIndexer (qPos gstart q m).toNat)
  else
    match interp with
    | Interpolation.linear => values (sortIndexer (qPos gstart q m).toNat) +
        (values (sortIndexer (qPos gstart q m + 1).toNat) -
          values (sortIndexer (qPos gstart q m).toNat)) * qFrac q m
    | Interpolation.higher =>
        values (sortIndexer (qPos gstart q m + 1).toNat)
    | Interpolation.midpoint =>
        (values (sortIndexer (qPos gstart q m).toNat) +
          values (sortIndexer (qPos gstart q m + 1).toNat)) / 2
    | Interpolation.nearest =>
        if 1/2 < qFrac q m ∨ (qFrac q m = 1/2 ∧ 1/2 < q) then
          values (sortIndexer (qPos gstart q m + 1).toNat)
        else values (sortIndexer (qPos gstart q m).toNat)
    | Interpolation.lower =>
        values (sortIndexer (qPos gstart q m).toNat)

/-- The first pass of `group_quantile`: per-group sizes and non-NA sizes,
skipping exactly the NA group label `-1`. -/
def qcPass (N : ℕ) (labels : ℕ → ℤ) (mask : ℕ → Bool) :
    (ℤ → ℤ) × (ℤ → ℤ) :=
  (List.range N).foldl
    (fun p i =>
      if labels i = -1 then p
      else (Function.update p.1 (labels i) (p.1 (labels i) + 1),
        if mask i then p.2
        else Function.update p.2 (labels i) (p.2 (labels i) + 1)))
    (fun _ => 0, fun _ => 0)

/-- One group of the second pass: write NaN to every quantile column when
the group has no non-NA values, else write the interpolated quantiles; then
advance `grp_start` by the group's (full) size. -/
def qgStep (values : ℕ → ℚ) (sortIndexer : ℕ → ℕ) (qs : List ℚ)
    (interp : Interpolation) (counts nonNa : ℤ → ℤ)
    (st : (ℕ → ℕ → Option ℚ) × ℤ) (g : ℕ) : (ℕ → ℕ → Option ℚ) × ℤ :=
  ((if nonNa g = 0 then
      (List.range qs.length).foldl (fun o k => upd2 o g k none) st.1
    else
      (List.range qs.length).foldl
        (fun o k => upd2 o g k (some (qCell values sortIndexer interp st.2
          (nonNa g) (qs.getD k 0)))) st.1),
    st.2 + counts g)

/-- Shallow embedding of `group_quantile`: validate the probabilities, run
the counting pass, then fill each group's row of `out` while threading
`grp_start`. -/
def groupQuantile (N ngroups : ℕ) (values : ℕ → ℚ) (labels : ℕ → ℤ)
    (mask : ℕ → Bool) (sortIndexer : ℕ → ℕ) (qs : List ℚ)
    (interp : Interpolation) (out0 : ℕ → ℕ → Option ℚ) :
    Except String (ℕ → ℕ → Option ℚ) :=
  if qs.any (fun q => decide (¬(0 ≤ q ∧ q ≤ 1))) then
    Except.error "Each 'q' must be between 0 and 1"
  else
    Except.ok
      ((List.range ngroups).foldl
        (qgStep values sortIndexer qs interp (qcPass N labels mask).1
          (qcPass N labels mask).2)
        (out0, 0)).1

/-- Spec-side group size: the number of rows labelled `g`. -/
def specGroupSize (N : ℕ) (labels : ℕ → ℤ) (g : ℕ) : ℕ :=
  ((List.range N).filter (fun i => labels i == (g : ℤ))).length

/-- Spec-side non-NA group size: the rows labelled `g` and not masked. -/
def specNonNaSize (N : ℕ) (labels : ℕ → ℤ) (mask : ℕ → Bool) (g : ℕ) : ℕ :=
  ((List.range N).filter
    (fun i => labels i == (g : ℤ) && mask i == false)).length

/-- Spec-side `grp_start`: the total size of the groups before `g`. -/
def specGrpStart (N : ℕ) (labels : ℕ → ℤ) (g : ℕ) : ℤ :=
  ((List.range g).map (fun x => (specGroupSize N labels x : ℤ))).sum

/-- Spec-side output scalar, phrased as the claim does: position
`grp_start + ⌊q * (m-1)⌋`, `frac` the fractional part of `q * (m-1)`,
`v` emitted when `frac = 0` or the mode is `lower`, else combined with the
next sorted value `v'` per the mode. -/
def quantileSpecCell (values : ℕ → ℚ) (sortIndexer : ℕ → ℕ)
    (interp : Interpolation) (gstart : ℤ) (m : ℕ) (q : ℚ) : ℚ :=
  if Int.fract (q * ((m : ℚ) - 1)) = 0 ∨ interp = Interpolation.lower then
    values (sortIndexer (gstart + ⌊q * ((m : ℚ) - 1)⌋).toNat)
  else
    match interp with
    | Interpolation.linear =>
        values (sortIndexer (gstart + ⌊q * ((m : ℚ) - 1)⌋).toNat) +
        (values (sortIndexer (gstart + ⌊q * ((m : ℚ) - 1)⌋ + 1).toNat) -
          values (sortIndexer (gstart + ⌊q * ((m : ℚ) - 1)⌋).toNat)) *
          Int.fract (q * ((m : ℚ) - 1))
    | Interpolation.higher =>
        values (sortIndexer (gstart + ⌊q * ((m : ℚ) - 1)⌋ + 1).toNat)
    | Interpolation.midpoint =>
        (values (sortIndexer (gstart + ⌊q * ((m : ℚ) - 1)⌋).toNat) +
          values (sortIndexer (gstart + ⌊q * ((m : ℚ) - 1)⌋ + 1).toNat)) / 2
    | Interpolation.nearest =>
        if 1/2 < Int.fract (q * ((m : ℚ) - 1)) ∨
            (Int.fract (q * ((m : ℚ) - 1)) = 1/2 ∧ 1/2 < q) then
          values (sortIndexer (gstart + ⌊q * ((m : ℚ) - 1)⌋ + 1).toNat)
        else values (sortIndexer (gstart + ⌊q * ((m : ℚ) - 1)⌋).toNat)
    | Interpolation.lower =>
        values (sortIndexer (gstart + ⌊q * ((m : ℚ) - 1)⌋).toNat)

/-- The counting pass: for a non-negative group label, `counts` is the
number of rows with that label and `non_na_counts` the number of those that
are unmasked. -/
theorem qcPass_counts (labels : ℕ → ℤ) (mask : ℕ → Bool) (g : ℤ)
    (hg : 0 ≤ g) :
    ∀ (l : List ℕ) (p : (ℤ → ℤ) × (ℤ → ℤ)),
      ((l.foldl
        (fun p i =>
          if labels i = -1 then p
          else (Function.update p.1 (labels i) (p.1 (labels i) + 1),
            if mask i then p.2
            else Function.update p.2 (labels i) (p.2 (labels i) + 1)))
        p).1 g =
        p.1 g + (l.filter (fun i => labels i == g)).length) ∧
      ((l.foldl
        (fun p i =>
          if labels i = -1 then p
          else (Function.update p.1 (labels i) (p.1 (labels i) + 1),
            if mask i then p.2
            else Function.update p.2 (labels i) (p.2 (labels i) + 1)))
        p).2 g =
        p.2 g + (l.filter (fun i => labels i == g && mask i == false)).length)
    := by
  intro l
  induction l with
  | nil =>
    intro p
    constructor <;> simp
  | cons i l ih =>
    intro p
    rw [List.foldl_cons, List.filter_cons, List.filter_cons]
    by_cases hlab : labels i = -1
    · have hbeq : (labels i == g) = false := by
        simp only [beq_eq_false_iff_ne, ne_eq]
        omega
      rw [if_pos hlab, hbeq]
      simp only [Bool.false_and, if_neg Bool.false_ne_true]
      exact ih p
    · rw [if_neg hlab]
      obtain ⟨ih1, ih2⟩ := ih
        (Function.update p.1 (labels i) (p.1 (labels i) + 1),
          if mask i then p.2
          else Function.update p.2 (labels i) (p.2 (labels i) + 1))
      constructor
      · rw [ih1]
        by_cases hgi : labels i = g
        · have hbeq : (labels i == g) = true := by simp [hgi]
          rw [hbeq, if_pos rfl]
          dsimp only
          rw [hgi, Function.update_same, List.length_cons]
          push_cast
          ring
        · have hbeq : (labels i == g) = false := by simp [hgi]
          rw [hbeq, if_neg Bool.false_ne_true]
          dsimp only
          rw [Function.update_noteq (fun h => hgi h.symm)]
      · rw [ih2]
        by_cases hgi : labels i = g
        · have hbeq : (labels i == g) = true := by simp [hgi]
          rw [hbeq]
          by_cases hm : mask i = true
          · have hbm : (mask i == false) = false := by simp [hm]
            rw [hbm]
            simp only [Bool.and_false, if_neg Bool.false_ne_true]
            rw [if_pos hm]
          · have hbm : (mask i == false) = true := by simp [Bool.not_eq_true] at hm; simp [hm]
            rw [hbm]
            simp only [Bool.and_true, if_pos rfl]
            rw [if_neg hm, hgi, Function.update_same]
            simp only [if_true, List.length_cons]
            push_cast
            ring
        · have hbeq : (labels i == g) = false := by simp [hgi]
          rw [hbeq]
          simp only [Bool.false_and, if_neg Bool.false_ne_true]
          by_cases hm : mask i = true
          · rw [if_pos hm]
          · rw [if_neg hm, Function.update_noteq (fun h => hgi h.symm)]

/-- `grp_start` threading: after any list of groups, the running offset has
advanced by the sum of their (full) group sizes. -/
theorem qgFold_snd (values : ℕ → ℚ) (sortIndexer : ℕ → ℕ) (qs : List ℚ)
    (interp : Interpolation) (counts nonNa : ℤ → ℤ) :
    ∀ (l : List ℕ) (st : (ℕ → ℕ → Option ℚ) × ℤ),
      (l.foldl (qgStep values sortIndexer qs interp counts nonNa) st).2 =
        st.2 + (l.map (fun x : ℕ => counts (x : ℤ))).sum := by
  intro l
  induction l with
  | nil =>
    intro st
    simp
  | cons a l ih =>
    intro st
    rw [List.foldl_cons, ih]
    simp only [qgStep, List.map_cons, List.sum_cons]
    ring

/-- The quantile-row writes touch only row `g` at the listed columns. -/
theorem qWrite_frame (g : ℕ) (f : ℕ → Option ℚ) :
    ∀ (l : List ℕ) (o : ℕ → ℕ → Option ℚ) (x y : ℕ),
      ¬(x = g ∧ y ∈ l) →
      (l.foldl (fun o k => upd2 o g k (f k)) o) x y = o x y := by
  intro l
  induction l with
  | nil =>
    intro o x y _
    rfl
  | cons a l ih =>
    intro o x y h
    rw [List.foldl_cons,
      ih _ x y (fun hand => h ⟨hand.1, List.mem_cons_of_mem a hand.2⟩)]
    refine upd2_other _ _ _ _ _ _ (fun hand => h ⟨hand.1, ?_⟩)
    rw [hand.2]
    exact List.mem_cons_self a l

/-- The quantile-row writes set each listed column of row `g` to its
computed value. -/
theorem qWrite_eq (g : ℕ) (f : ℕ → Option ℚ) :
    ∀ (l : List ℕ) (o : ℕ → ℕ → Option ℚ) (k : ℕ), k ∈ l →
      (l.foldl (fun o k => upd2 o g k (f k)) o) g k = f k := by
  intro l
  induction l with
  | nil =>
    intro o k hk
    exact absurd hk (List.not_mem_nil k)
  | cons a l ih =>
    intro o k hk
    rw [List.foldl_cons]
    by_cases hkl : k ∈ l
    · exact ih _ k hkl
    · have hka : k = a := (List.mem_cons.mp hk).resolve_right hkl
      rw [qWrite_frame g f l _ g k (fun hand => hkl hand.2), hka, upd2_same]

/-- Groups other than `g` never write row `g` of `out`. -/
theorem qgFold_frame (values : ℕ → ℚ) (sortIndexer : ℕ → ℕ) (qs : List ℚ)
    (interp : Interpolation) (counts nonNa : ℤ → ℤ) (g k : ℕ) :
    ∀ (l : List ℕ) (st : (ℕ → ℕ → Option ℚ) × ℤ), (∀ g' ∈ l, g' ≠ g) →
      (l.foldl (qgStep values sortIndexer qs interp counts nonNa) st).1 g k =
        st.1 g k := by
  intro l
  induction l with
  | nil =>
    intro st _
    rfl
  | cons a l ih =>
    intro st h
    rw [List.foldl_cons,
      ih _ (fun g' hg' => h g' (List.mem_cons_of_mem a hg'))]
    unfold qgStep
    dsimp only
    split_ifs
    · exact qWrite_frame a _ (List.range qs.length) _ g k
        (fun hand => h a (List.mem_cons_self a l) hand.1.symm)
    · exact qWrite_frame a _ (List.range qs.length) _ g k
        (fun hand => h a (List.mem_cons_self a l) hand.1.symm)

/-- One output cell of the second pass, in terms of the counting pass:
NaN when the group has no non-NA values, else the interpolated quantile at
offset `grp_start`, the sum of the earlier groups' sizes. -/
theorem groupQuantile_cell (N ngroups : ℕ) (values : ℕ → ℚ)
    (labels : ℕ → ℤ) (mask : ℕ → Bool) (sortIndexer : ℕ → ℕ) (qs : List ℚ)
    (interp : Interpolation) (out0 : ℕ → ℕ → Option ℚ) (g k : ℕ)
    (hg : g < ngroups) (hk : k < qs.length) :
    ((List.range ngroups).foldl
      (qgStep values sortIndexer qs interp (qcPass N labels mask).1
        (qcPass N labels mask).2) (out0, 0)).1 g k =
      (if (qcPass N labels mask).2 g = 0 then none
        else some (qCell values sortIndexer interp
          (((List.range g).map
            (fun x : ℕ => (qcPass N labels mask).1 (x : ℤ))).sum)
          ((qcPass N labels mask).2 g) (qs.getD k 0))) := by
  rw [show List.range ngroups = List.range ((g+1) + (ngroups - (g+1))) from
    by congr 1; omega]
  rw [List.range_add, List.foldl_append]
  rw [qgFold_frame values sortIndexer qs interp _ _ g k _ _
    (fun g' hg' => by
      obtain ⟨x, _, rfl⟩ := List.mem_map.mp hg'
      omega)]
  rw [List.range_succ, List.foldl_append, List.foldl_cons, List.foldl_nil]
  have hsnd := qgFold_snd values sortIndexer qs interp
    (qcPass N labels mask).1 (qcPass N labels mask).2 (List.range g)
    (out0, 0)
  unfold qgStep at hsnd ⊢
  dsimp only
  dsimp only at hsnd
  rw [hsnd]
  split_ifs with h0
  · rw [qWrite_eq g _ (List.range qs.length) _ k (List.mem_range.mpr hk)]
  · rw [qWrite_eq g _ (List.range qs.length) _ k (List.mem_range.mpr hk),
      zero_add]

/-- For a validated probability and a non-empty non-NA count, the C cast's
truncation toward zero is the floor and `% 1` is the fractional part, so the
kernel's cell value matches the claim's floor/fract formula. -/
theorem qCell_eq_spec (values : ℕ → ℚ) (sortIndexer : ℕ → ℕ)
    (interp : Interpolation) (gstart : ℤ) (m : ℕ) (q : ℚ)
    (hq0 : 0 ≤ q) (hm : 1 ≤ m) :
    qCell values sortIndexer interp gstart (m : ℤ) q =
      quantileSpecCell values sortIndexer interp gstart m q := by
  have hx0 : (0 : ℚ) ≤ q * ((((m : ℤ) : ℚ)) - 1) := by
    refine mul_nonneg hq0 ?_
    push_cast
    have : (1 : ℚ) ≤ (m : ℚ) := by exact_mod_cast hm
    linarith
  have hcast : (((m : ℤ) : ℚ)) = (m : ℚ) := by push_cast; ring
  unfold qCell quantileSpecCell qFrac qPos qIdxVal
  have htr : truncQ (q * ((((m : ℤ) : ℚ)) - 1)) =
      ⌊q * ((((m : ℤ) : ℚ)) - 1)⌋ := by
    unfold truncQ
    rw [if_pos hx0]
  rw [htr, hcast]
  simp only [Int.fract]

/-- The counting pass in spec terms: filter lengths over the rows. -/
theorem qcPass_spec (N : ℕ) (labels : ℕ → ℤ) (mask : ℕ → Bool) (g : ℕ) :
    (qcPass N labels mask).1 (g : ℤ) = (specGroupSize N labels g : ℤ) ∧
    (qcPass N labels mask).2 (g : ℤ) =
      (specNonNaSize N labels mask g : ℤ) := by
  obtain ⟨h1, h2⟩ := qcPass_counts labels mask (g : ℤ) (by positivity)
    (List.range N) (fun _ => 0, fun _ => 0)
  constructor
  · unfold qcPass specGroupSize
    rw [h1]
    simp
  · unfold qcPass specNonNaSize
    rw [h2]
    simp

/-- The full kernel in spec terms (general part of C2): validation passes,
and each cell is NaN for an all-NA group, else the claim's floor/fract
interpolation formula at `grp_start`, the sum of the earlier groups'
sizes. -/
theorem groupQuantile_ok (N ngroups : ℕ) (values : ℕ → ℚ)
    (labels : ℕ → ℤ) (mask : ℕ → Bool) (sortIndexer : ℕ → ℕ) (qs : List ℚ)
    (interp : Interpolation) (out0 : ℕ → ℕ → Option ℚ) (g k : ℕ)
    (hg : g < ngroups) (hk : k < qs.length)
    (hq : ∀ q ∈ qs, 0 ≤ q ∧ q ≤ 1) :
    ∃ r, groupQuantile N ngroups values labels mask sortIndexer qs interp
        out0 = Except.ok r ∧
      r g k = (if specNonNaSize N labels mask g = 0 then none
        else some (quantileSpecCell values sortIndexer interp
          (specGrpStart N labels g) (specNonNaSize N labels mask g)
          (qs.getD k 0))) := by
  have hval : (qs.any (fun q => decide (¬(0 ≤ q ∧ q ≤ 1)))) = false := by
    rw [List.any_eq_false]
    intro q hqm
    simpa using hq q hqm
  unfold groupQuantile
  rw [if_neg (by rw [hval]; exact Bool.false_ne_true)]
  refine ⟨_, rfl, ?_⟩
  rw [groupQuantile_cell N ngroups values labels mask sortIndexer qs interp
    out0 g k hg hk]
  have hnn := (qcPass_spec N labels mask g).2
  rw [hnn]
  by_cases h0 : specNonNaSize N labels mask g = 0
  · rw [if_pos (Nat.cast_eq_zero.mpr h0), if_pos h0]
  · rw [if_neg (fun hc => h0 (Nat.cast_eq_zero.mp hc)), if_neg h0]
    have hsum : ((List.range g).map
        (fun x : ℕ => (qcPass N labels mask).1 (x : ℤ))).sum =
        specGrpStart N labels g := by
      unfold specGrpStart
      congr 1
      refine List.map_congr_left ?_
      intro x _
      exact (qcPass_spec N labels mask x).1
    rw [hsum]
    have hmem : qs.getD k 0 ∈ qs := by
      rw [List.getD_eq_getElem qs 0 hk]
      exact List.getElem_mem hk
    rw [qCell_eq_spec values sortIndexer interp (specGrpStart N labels g)
      (specNonNaSize N labels mask g) (qs.getD k 0) (hq _ hmem).1
      (by omega)]

/-- C2: for every `group_quantile` call whose probabilities all lie in
`[0, 1]`, validation passes and each output cell is NaN when the group's
non-NA count `m` is zero, and otherwise the value read at sorted position
`grp_start + ⌊q * (m-1)⌋` through `sort_indexer`, emitted as-is when
`frac = q*(m-1) - ⌊q*(m-1)⌋` is zero or the mode is `lower`, else combined
with the next sorted value per the mode; and the claim's example — sorted
group values `[1, 2, 3, 4]`, `q = 1/2`, mode `linear` — yields `5/2`. -/
theorem groupQuantile_formula :
    (∀ (N ngroups : ℕ) (values : ℕ → ℚ) (labels : ℕ → ℤ)
      (mask : ℕ → Bool) (sortIndexer : ℕ → ℕ) (qs : List ℚ)
      (interp : Interpolation) (out0 : ℕ → ℕ → Option ℚ) (g k : ℕ),
      g < ngroups → k < qs.length → (∀ q ∈ qs, 0 ≤ q ∧ q ≤ 1) →
      ∃ r, groupQuantile N ngroups values labels mask sortIndexer qs interp
          out0 = Except.ok r ∧
        r g k = (if specNonNaSize N labels mask g = 0 then none
          else some (quantileSpecCell values sortIndexer interp
            (specGrpStart N labels g) (specNonNaSize N labels mask g)
            (qs.getD k 0)))) ∧
    (∃ r, groupQuantile 4 1 (fun i => (i : ℚ) + 1) (fun _ => 0)
        (fun _ => false) (fun i => i) [1/2] Interpolation.linear
        (fun _ _ => some 99) = Except.ok r ∧ r 0 0 = some (5/2)) := by
  constructor
  · intro N ngroups values labels mask sortIndexer qs interp out0 g k hg hk
      hq
    exact groupQuantile_ok N ngroups values labels mask sortIndexer qs
      interp out0 g k hg hk hq
  · obtain ⟨r, hr, hcell⟩ := groupQuantile_ok 4 1 (fun i => (i : ℚ) + 1)
      (fun _ => 0) (fun _ => false) (fun i => i) [1/2] Interpolation.linear
      (fun _ _ => some 99) 0 0 (by omega) (by simp)
      (by
        intro q hqm
        rw [List.mem_singleton] at hqm
        subst hqm
        constructor <;> norm_num)
    refine ⟨r, hr, ?_⟩
    rw [hcell]
    have hs : specNonNaSize 4 (fun _ => 0) (fun _ => false) 0 = 4 := by
      decide
    rw [hs, if_neg (by omega)]
    have hgs : specGrpStart 4 (fun _ => 0) 0 = 0 := rfl
    rw [hgs]
    have hq0 : ([1/2] : List ℚ).getD 0 0 = 1/2 := rfl
    rw [hq0]
    have hfl : ⌊(1/2 : ℚ) * (((4 : ℕ) : ℚ) - 1)⌋ = 1 := by
      rw [show (1/2 : ℚ) * (((4 : ℕ) : ℚ) - 1) = 3/2 by push_cast; norm_num]
      rw [Int.floor_eq_iff]
      constructor <;> norm_num
    have hfr : Int.fract ((1/2 : ℚ) * (((4 : ℕ) : ℚ) - 1)) = 1/2 := by
      simp only [Int.fract]
      rw [hfl]
      push_cast
      norm_num
    unfold quantileSpecCell
    rw [hfr, hfl]
    rw [if_neg (by
      rintro (h | h)
      · norm_num at h
      · exact absurd h (by decide))]
    norm_num [show Int.toNat 2 = 2 from rfl]

theorem groupQuantile_formula_witness :
    ∃ r, groupQuantile 2 1 (fun i => (i : ℚ)) (fun _ => 0) (fun _ => false)
        (fun i => i) [0] Interpolation.lower (fun _ _ => none) =
        Except.ok r ∧
      r 0 0 = (if specNonNaSize 2 (fun _ => 0) (fun _ => false) 0 = 0 then
          none
        else some (quantileSpecCell (fun i => (i : ℚ)) (fun i => i)
          Interpolation.lower (specGrpStart 2 (fun _ => 0) 0)
          (specNonNaSize 2 (fun _ => 0) (fun _ => false) 0)
          (([0] : List ℚ).getD 0 0))) :=
  groupQuantile_formula.1 2 1 (fun i => (i : ℚ)) (fun _ => 0)
    (fun _ => false) (fun i => i) [0] Interpolation.lower (fun _ _ => none)
    0 0 (by decide) (by decide)
    (by
      intro q hqm
      rw [List.mem_singleton] at hqm
      subst hqm
      constructor <;> norm_num)
